import Mathlib

/-!
# kubectl-guard: the Guard Decision Engine

A shallow embedding of the decision logic of `kubectl-guard`
(`guard/commands.go`, `guard/guard.go`, `guard/context.go`,
`config/config.go`) together with theorems about it.

Modelling conventions:

* A Go `string` is a Lean `String`.  Every string operation the code itself
  uses (`strings.HasPrefix`, `strings.Contains`, `==`, map lookup, `+`) is
  applied with ASCII literals only, so working on characters instead of bytes
  gives the same answers on every valid UTF-8 argument.
* A Go `map[string]bool` whose entries are all `true` is the list of its
  keys; a lookup `m[k]` is `m.contains k` (a missing key yields `false`).
* A Go `for ... range` loop over a slice is a structural recursion over the
  list that carries the loop's local variables.
* External effects (`os.Stat`, `os.ReadFile`, running `kubectl`) are inputs:
  the result each call returns is supplied by the caller of the model.
* `filepath.Match` is a parameter of `IsContextProtected` and `Check`. The
  claims about glob patterns instantiate it with `filepathMatch`, a model of
  the standard library function (`path/filepath/match.go`, Unix) that works,
  as the Go function does, on the UTF-8 bytes of its arguments: the `*` retry
  advances byte by byte and `?` and a bracket expression consume one decoded
  rune. Its loops that are not structural carry a fuel, proved never to be
  exhausted (`matchLoop_fuel`, `matchChunkLoop_fuel`, `classLoop_fuel`), and
  it is checked on the test table of the Go package (`filepathMatch_matchTests`).
-/

namespace KubectlGuard

/-! ## Go string primitives -/

/-- Go `strings.HasPrefix(s, prefix)`. -/
def HasPrefix (s pre : String) : Bool :=
  pre.data.isPrefixOf s.data

/-- Go `strings.Contains(s, substr)`: some suffix of `s` starts with `substr`. -/
def Contains (s substr : String) : Bool :=
  s.data.tails.any (fun t => substr.data.isPrefixOf t)

/-! ## guard/commands.go: the safety policy tables -/

/-- The keys of `safeCommands` (read-only commands); every value is `true`. -/
def safeCommands : List String :=
  ["get", "describe", "logs", "top", "explain", "api-resources", "api-versions",
   "version", "cluster-info", "config", "auth", "wait", "diff"]

/-- The keys of `stateAlteringCommands`; every value is `true`. -/
def stateAlteringCommands : List String :=
  ["apply", "create", "delete", "patch", "replace", "edit", "scale", "rollout",
   "autoscale", "expose", "run", "set", "label", "annotate", "taint", "drain",
   "cordon", "uncordon", "exec", "cp", "debug", "attach"]

/-- The keys of `safeRolloutSubcommands`; every value is `true`. -/
def safeRolloutSubcommands : List String :=
  ["status", "history"]

/-- The keys of `knownShortFlags` (short flags that take a value). -/
def knownShortFlags : List String :=
  ["-n", "-l", "-f", "-o", "-c", "-s", "-p", "-k", "-R"]

/-- The keys of `knownLongFlags` (long flags that take a separate value). -/
def knownLongFlags : List String :=
  ["--context", "--namespace", "--selector", "--filename", "--output",
   "--container", "--kubeconfig", "--cluster", "--user"]

/-! ## guard/commands.go: the argument classifier -/

/-- The body of the `for _, arg := range args` loop of `ExtractCommand`.
The loop's variables are `skipNext` and `cmd`; `subCmd` is only assigned
immediately before the `break`, so it is `""` whenever the loop runs on. -/
def extractLoop : List String → Bool → String → String × String
  | [], _, cmd => (cmd, "")
  | arg :: rest, skipNext, cmd =>
    if skipNext then
      extractLoop rest false cmd
    else if HasPrefix arg "--" then
      if !Contains arg "=" && knownLongFlags.contains arg then
        extractLoop rest true cmd
      else
        extractLoop rest false cmd
    else if HasPrefix arg "-" then
      if knownShortFlags.contains arg then
        extractLoop rest true cmd
      else
        extractLoop rest false cmd
    else if cmd == "" then
      extractLoop rest false arg
    else
      (cmd, arg)

/-- Go `ExtractCommand(args)`: the pair `(cmd, subCmd)`. -/
def ExtractCommand (args : List String) : String × String :=
  extractLoop args false ""

/-- Go `IsSafeCommand(args)`. -/
def IsSafeCommand (args : List String) : Bool :=
  if args.length == 0 then
    true
  else
    let (cmd, subCmd) := ExtractCommand args
    if cmd == "" then
      true
    else if cmd == "rollout" && safeRolloutSubcommands.contains subCmd then
      true
    else
      safeCommands.contains cmd

/-- Go `IsStateAltering(args)`. -/
def IsStateAltering (args : List String) : Bool :=
  if args.length == 0 then
    false
  else
    let (cmd, subCmd) := ExtractCommand args
    if cmd == "" then
      false
    else if cmd == "rollout" && safeRolloutSubcommands.contains subCmd then
      false
    else
      stateAlteringCommands.contains cmd

/-- Go `GetCommandDescription(args)`. -/
def GetCommandDescription (args : List String) : String :=
  let (cmd, subCmd) := ExtractCommand args
  if subCmd != "" then
    cmd ++ " " ++ subCmd
  else
    cmd

/-! ## config/config.go: the protected pattern list -/

/-- A Go `error` value, identified by its message. -/
structure GoError where
  msg : String
deriving DecidableEq, Repr

/-- Go `config.Config`. -/
structure Config where
  ProtectedContexts : List String
deriving DecidableEq, Repr

/-- The signature of `filepath.Match(pattern, name) (matched bool, err error)`
from the Go standard library. The matcher is an input of the model. -/
abbrev Matcher := String → String → Bool × Option GoError

/-- The `for _, pattern := range c.ProtectedContexts` loop of
`IsContextProtected`: the error of the matcher is discarded (`matched, _ :=`)
and the first pattern that matches returns `true`. -/
def isContextProtectedLoop (fmatch : Matcher) : List String → String → Bool
  | [], _ => false
  | pattern :: rest, context =>
    if (fmatch pattern context).1 then
      true
    else
      isContextProtectedLoop fmatch rest context

/-- Go `(c *Config) IsContextProtected(context)`. The method has a pointer
receiver, so the model returns the configuration as it is after the call next
to the result. -/
def Config.IsContextProtected (fmatch : Matcher) (c : Config) (context : String) :
    Bool × Config :=
  (isContextProtectedLoop fmatch c.ProtectedContexts context, c)

/-- A matcher that compares pattern and name literally. -/
def exactNameMatch : Matcher :=
  fun pattern name => (pattern == name, none)

/-! ## guard/guard.go: the decision engine -/

/-- Go `guard.Result`. -/
inductive Result where
  | Allow
  | RequireConfirmation
  | SetupRequired
deriving DecidableEq, Repr

/-- The external calls `Check` can make. -/
inductive ExtCall where
  | configExists
  | configLoad
  | getCurrentContext
deriving DecidableEq, Repr

/-- What the environment answers to each external call of one invocation:
`config.Exists()`, `config.Load()`, `GetCurrentContext()` and
`filepath.Match`. -/
structure World where
  configExists : Except GoError Bool
  configLoad : Except GoError Config
  getCurrentContext : Except GoError String
  filepathMatch : Matcher

/-- Go `Check(args) (Result, string, error)`. The first component is the
returned triple (a `nil` error is `none`); the second is the sequence of
external calls made, in order. -/
def Check (w : World) (args : List String) :
    (Result × String × Option GoError) × List ExtCall :=
  match w.configExists with
  | .error err => ((.Allow, "", some err), [.configExists])
  | .ok false => ((.SetupRequired, "", none), [.configExists])
  | .ok true =>
    match w.configLoad with
    | .error err => ((.Allow, "", some err), [.configExists, .configLoad])
    | .ok cfg =>
      match w.getCurrentContext with
      | .error _ =>
        ((.Allow, "", none), [.configExists, .configLoad, .getCurrentContext])
      | .ok ctx =>
        if !(cfg.IsContextProtected w.filepathMatch ctx).1 then
          ((.Allow, ctx, none), [.configExists, .configLoad, .getCurrentContext])
        else if IsStateAltering args then
          ((.RequireConfirmation, ctx, none),
            [.configExists, .configLoad, .getCurrentContext])
        else
          ((.Allow, ctx, none), [.configExists, .configLoad, .getCurrentContext])

/-! ## config/config.go: editing the protected pattern list -/

/-- The `for _, ctx := range c.ProtectedContexts` loop of `AddContext`; the
result is `true` when the loop leaves the function through its
`return false`, that is when some element equals `context`. -/
def addContextLoop : List String → String → Bool
  | [], _ => false
  | ctx :: rest, context =>
    if ctx == context then true else addContextLoop rest context

/-- Go `(c *Config) AddContext(context) bool`: the returned flag and the
configuration after the call. -/
def Config.AddContext (c : Config) (context : String) : Bool × Config :=
  if addContextLoop c.ProtectedContexts context then
    (false, c)
  else
    (true, ⟨c.ProtectedContexts ++ [context]⟩)

/-- The `for i, ctx := range c.ProtectedContexts` loop of `RemoveContext` at
index `i`, with `all` the whole slice: at the first element equal to
`context` the slice becomes `append(all[:i], all[i+1:]...)`. -/
def removeContextLoop (all : List String) (context : String) :
    Nat → List String → Bool × List String
  | _, [] => (false, all)
  | i, ctx :: rest =>
    if ctx == context then
      (true, all.take i ++ all.drop (i + 1))
    else
      removeContextLoop all context (i + 1) rest

/-- Go `(c *Config) RemoveContext(context) bool`: the returned flag and the
configuration after the call. -/
def Config.RemoveContext (c : Config) (context : String) : Bool × Config :=
  let r := removeContextLoop c.ProtectedContexts context 0 c.ProtectedContexts
  (r.1, ⟨r.2⟩)

/-! ## Vocabulary of the description's specification -/

/-- The first space-separated word of a string: its characters up to the
first space. -/
def firstWord (s : String) : String :=
  ⟨s.data.takeWhile (fun c => c != ' ')⟩

/-! ## guard/context.go: parsing a line of `kubectl config get-contexts` -/

/-- Go `strings.TrimPrefix(s, prefix)`. -/
def TrimPrefix (s pre : String) : String :=
  if HasPrefix s pre then ⟨s.data.drop pre.data.length⟩ else s

/-- Go `unicode.IsSpace`: the Latin-1 spaces `\t \n \v \f \r`, space, U+0085,
U+00A0, and the other code points with the White_Space property. -/
def isSpace (c : Char) : Bool :=
  let n := c.toNat
  (9 ≤ n && n ≤ 13) || n == 32 || n == 0x85 || n == 0xA0 || n == 0x1680 ||
    (0x2000 ≤ n && n ≤ 0x200A) || n == 0x2028 || n == 0x2029 || n == 0x202F ||
    n == 0x205F || n == 0x3000

/-- The scan of `strings.Fields`: `cur` holds the characters of the field
being read; white space ends a non-empty field and is dropped. -/
def fieldsLoop : List Char → List Char → List String
  | [], cur => if cur.isEmpty then [] else [⟨cur⟩]
  | c :: cs, cur =>
    if isSpace c then
      if cur.isEmpty then fieldsLoop cs [] else ⟨cur⟩ :: fieldsLoop cs []
    else
      fieldsLoop cs (cur ++ [c])

/-- Go `strings.Fields(s)`. -/
def Fields (s : String) : List String :=
  fieldsLoop s.data []

/-- Go `guard.KubectlContext`. -/
structure KubectlContext where
  Name : String
  Cluster : String
  AuthInfo : String
  Namespace : String
  Current : Bool
deriving DecidableEq, Repr

/-- One guarded assignment of `parseContextLine`,
`if len(fields) >= n { ctx.F = fields[n-1] }`. The index expression is
`fields[n-1]?`: `none` is Go's index-out-of-range panic. -/
def assignField (fields : List String) (n : Nat)
    (set : KubectlContext → String → KubectlContext) (ctx : KubectlContext) :
    Option KubectlContext :=
  if fields.length ≥ n then
    match fields[n - 1]? with
    | some f => some (set ctx f)
    | none => none
  else
    some ctx

/-- Go `parseContextLine(line)`; the result is `none` exactly when the Go
function would panic. -/
def parseContextLine (line : String) : Option KubectlContext :=
  let ctx : KubectlContext := ⟨"", "", "", "", false⟩
  let current := HasPrefix line "*"
  let ctx := if current then { ctx with Current := true } else ctx
  let line := if current then TrimPrefix line "*" else line
  let fields := Fields line
  (assignField fields 1 (fun c f => { c with Name := f }) ctx).bind fun ctx =>
  (assignField fields 2 (fun c f => { c with Cluster := f }) ctx).bind fun ctx =>
  (assignField fields 3 (fun c f => { c with AuthInfo := f }) ctx).bind fun ctx =>
  assignField fields 4 (fun c f => { c with Namespace := f }) ctx

/-! ## The Go standard library: `filepath.Match`

`path/filepath/match.go` and `unicode/utf8` for Unix: `Separator` is `/` and a
backslash escapes the next character. `filepath.Match` works on the bytes of
its arguments, so the model does too: a Go string is here the list of its
UTF-8 bytes, each a natural number below 256. In the definitions `42` is `*`,
`45` is `-`, `47` is `/`, `63` is `?`, `91` is `[`, `92` is `\`, `93` is `]`
and `94` is `^`. -/

/-- The UTF-8 encoding of one character. -/
def utf8EncodeChar (c : Char) : List Nat :=
  if c.toNat < 0x80 then
    [c.toNat]
  else if c.toNat < 0x800 then
    [0xC0 + c.toNat / 64, 0x80 + c.toNat % 64]
  else if c.toNat < 0x10000 then
    [0xE0 + c.toNat / 4096, 0x80 + c.toNat / 64 % 64, 0x80 + c.toNat % 64]
  else
    [0xF0 + c.toNat / 262144, 0x80 + c.toNat / 4096 % 64, 0x80 + c.toNat / 64 % 64,
      0x80 + c.toNat % 64]

/-- The UTF-8 encoding of a list of characters. -/
def utf8EncodeChars : List Char → List Nat
  | [] => []
  | c :: cs => utf8EncodeChar c ++ utf8EncodeChars cs

/-- The bytes of a Go string. -/
def utf8Bytes (s : String) : List Nat :=
  utf8EncodeChars s.data

/-- Go `utf8.RuneError`. -/
def RuneError : Nat := 0xFFFD

/-- The entry of the table `first` of `unicode/utf8` for a leading byte, with
the accept range of the second byte spelled out: `none` for an invalid leading
byte, else the size of the encoding and the bounds of the second byte. ASCII
bytes are handled before the table is consulted. -/
def firstByte (b : Nat) : Option (Nat × Nat × Nat) :=
  if b < 0xC2 then none
  else if b ≤ 0xDF then some (2, 0x80, 0xBF)
  else if b = 0xE0 then some (3, 0xA0, 0xBF)
  else if b ≤ 0xEC then some (3, 0x80, 0xBF)
  else if b = 0xED then some (3, 0x80, 0x9F)
  else if b ≤ 0xEF then some (3, 0x80, 0xBF)
  else if b = 0xF0 then some (4, 0x90, 0xBF)
  else if b ≤ 0xF3 then some (4, 0x80, 0xBF)
  else if b = 0xF4 then some (4, 0x80, 0x8F)
  else none

/-- Go `utf8.DecodeRuneInString(s)`: the rune and its width in bytes; an
invalid encoding gives `(RuneError, 1)` and the empty string
`(RuneError, 0)`. -/
def decodeRune (s : List Nat) : Nat × Nat :=
  match s with
  | [] => (RuneError, 0)
  | s0 :: rest =>
    if s0 < 0x80 then (s0, 1)
    else
      match firstByte s0 with
      | none => (RuneError, 1)
      | some (sz, lo, hi) =>
        if rest.length + 1 < sz then (RuneError, 1)
        else
          match rest with
          | [] => (RuneError, 1)
          | s1 :: rest1 =>
            if s1 < lo ∨ hi < s1 then (RuneError, 1)
            else if sz ≤ 2 then (s0 % 32 * 64 + s1 % 64, 2)
            else
              match rest1 with
              | [] => (RuneError, 1)
              | s2 :: rest2 =>
                if s2 < 0x80 ∨ 0xBF < s2 then (RuneError, 1)
                else if sz ≤ 3 then (s0 % 16 * 4096 + s1 % 64 * 64 + s2 % 64, 3)
                else
                  match rest2 with
                  | [] => (RuneError, 1)
                  | s3 :: _ =>
                    if s3 < 0x80 ∨ 0xBF < s3 then (RuneError, 1)
                    else
                      (s0 % 8 * 262144 + s1 % 64 * 4096 + s2 % 64 * 64 + s3 % 64, 4)

/-- Go `filepath.ErrBadPattern`. -/
def ErrBadPattern : GoError := ⟨"syntax error in pattern"⟩

/-- Go `filepath.Separator` on Unix, the byte of `/`. -/
def Separator : Nat := 47

/-- The result triple `(rest, ok, err)` of `matchChunk`. -/
inductive ChunkResult where
  | badPattern
  | noMatch
  | matched (rest : List Nat)
deriving DecidableEq, Repr

/-- The loop of `scanChunk` that drops leading stars and records in `star`
whether there was one. -/
def scanStars : List Nat → Bool → Bool × List Nat
  | [], star => (star, [])
  | c :: cs, star => if c = 42 then scanStars cs true else (star, c :: cs)

/-- The `Scan` loop of `scanChunk`: splits the pattern before the first `*`
that is outside a bracket expression; an escaped byte is skipped. -/
def scanLoop : List Nat → Bool → List Nat × List Nat
  | [], _ => ([], [])
  | c :: cs, inrange =>
    if c = 92 then
      match cs with
      | [] => ([c], [])
      | d :: ds => (c :: d :: (scanLoop ds inrange).1, (scanLoop ds inrange).2)
    else if c = 91 then
      (c :: (scanLoop cs true).1, (scanLoop cs true).2)
    else if c = 93 then
      (c :: (scanLoop cs false).1, (scanLoop cs false).2)
    else if c = 42 then
      if !inrange then ([], c :: cs)
      else (c :: (scanLoop cs inrange).1, (scanLoop cs inrange).2)
    else
      (c :: (scanLoop cs inrange).1, (scanLoop cs inrange).2)

/-- Go `scanChunk(pattern) (star, chunk, rest)`. -/
def scanChunk (pattern : List Nat) : Bool × List Nat × List Nat :=
  let s := scanStars pattern false
  (s.1, scanLoop s.2 false)

/-- Go `getEsc(chunk) (r, nchunk, err)`; `none` is `ErrBadPattern`. -/
def getEsc (chunk : List Nat) : Option (Nat × List Nat) :=
  match chunk with
  | [] => none
  | c :: cs =>
    if c = 45 ∨ c = 93 then none
    else
      match (if c = 92 then cs else c :: cs) with
      | [] => none
      | d :: ds =>
        let r := (decodeRune (d :: ds)).1
        let n := (decodeRune (d :: ds)).2
        if (r = RuneError ∧ n = 1) ∨ ((d :: ds).drop n).isEmpty then none
        else some (r, (d :: ds).drop n)

/-- The range loop of a bracket expression in `matchChunk`, for the rune `r`
read from the name: returns the `match` flag and the chunk after the closing
bracket, or `none` for `ErrBadPattern`. Every iteration consumes at least one
byte, so `fuel` at least the length of the chunk is never exhausted before
the chunk is. -/
def classLoop : Nat → List Nat → Nat → Bool → Nat → Option (Bool × List Nat)
  | 0, _, _, _, _ => none
  | fuel + 1, chunk, r, m, nrange =>
    if chunk.head? = some 93 ∧ nrange > 0 then
      some (m, chunk.tail)
    else
      match getEsc chunk with
      | none => none
      | some (lo, chunk1) =>
        if chunk1.head? = some 45 then
          match getEsc chunk1.tail with
          | none => none
          | some (hi, chunk2) =>
            classLoop fuel chunk2 r (m || (decide (lo ≤ r) && decide (r ≤ hi))) (nrange + 1)
        else
          classLoop fuel chunk1 r (m || (decide (lo ≤ r) && decide (r ≤ lo))) (nrange + 1)

/-- The loop of `matchChunk(chunk, s)` with its `failed` flag. The flag is set
at the head of an iteration when `s` is empty, so the index expressions `s[0]`
and `s[1:]`, which the Go code evaluates only while the flag is not set, are
reached with `s` not empty: `s.head?` is then `s[0]` and `s.tail` is
`s[1:]`. -/
def matchChunkLoop : Nat → List Nat → List Nat → Bool → ChunkResult
  | _, [], s, failed => if failed then .noMatch else .matched s
  | 0, _ :: _, _, _ => .badPattern
  | fuel + 1, c :: cs, s, failed =>
    let failed := failed || s.isEmpty
    if c = 91 then
      let r := if failed then 0 else (decodeRune s).1
      let s := if failed then s else s.drop (decodeRune s).2
      let negated := decide (cs.head? = some 94)
      let cs := if negated then cs.tail else cs
      match classLoop fuel cs r false 0 with
      | none => .badPattern
      | some (m, cs) => matchChunkLoop fuel cs s (failed || (m == negated))
    else if c = 63 then
      if failed then matchChunkLoop fuel cs s true
      else matchChunkLoop fuel cs (s.drop (decodeRune s).2) (s.head? == some Separator)
    else if c = 92 then
      match cs with
      | [] => .badPattern
      | d :: ds =>
        if failed then matchChunkLoop fuel ds s true
        else matchChunkLoop fuel ds s.tail (s.head? != some d)
    else
      if failed then matchChunkLoop fuel cs s true
      else matchChunkLoop fuel cs s.tail (s.head? != some c)

/-- Go `matchChunk(chunk, s)`. -/
def matchChunk (chunk s : List Nat) : ChunkResult :=
  matchChunkLoop chunk.length chunk s false

/-- How one iteration of the `Pattern` loop of `Match` ends: with
`return false, err`, with `return false, nil`, or with `name = t; continue`. -/
inductive StarResult where
  | badPattern
  | notFound
  | found (rest : List Nat)
deriving DecidableEq, Repr

/-- The loop `for i := 0; i < len(name) && name[i] != Separator; i++` of
`Match`, which tries the chunk after skipping `i+1` bytes of the name;
`lastChunk` is `len(pattern) == 0`. -/
def starLoop (chunk : List Nat) (lastChunk : Bool) : List Nat → StarResult
  | [] => .notFound
  | c :: cs =>
    if c = Separator then .notFound
    else
      match matchChunk chunk cs with
      | .matched t =>
        if lastChunk && !t.isEmpty then starLoop chunk lastChunk cs
        else .found t
      | .badPattern => .badPattern
      | .noMatch => starLoop chunk lastChunk cs

/-- One iteration of the `Pattern` loop of `Match` for the scanned `star` and
`chunk`, with `lastChunk` standing for `len(pattern) == 0`: the chunk is tried
at the current position, then, for a starred chunk, after skipping bytes. -/
def nextName (star : Bool) (chunk : List Nat) (lastChunk : Bool)
    (name : List Nat) : StarResult :=
  match matchChunk chunk name with
  | .matched t =>
    if t.isEmpty || !lastChunk then .found t
    else if star then starLoop chunk lastChunk name
    else .notFound
  | .badPattern => .badPattern
  | .noMatch =>
    if star then starLoop chunk lastChunk name else .notFound

/-- The `Pattern` loop of `Match`. Every iteration removes at least one byte
from the pattern, so `fuel` at least the length of the pattern is never
exhausted before the pattern is. -/
def matchLoop : Nat → List Nat → List Nat → Bool × Option GoError
  | _, [], name => (name.isEmpty, none)
  | 0, _ :: _, _ => (false, some ErrBadPattern)
  | fuel + 1, c :: cs, name =>
    let star := (scanChunk (c :: cs)).1
    let chunk := (scanChunk (c :: cs)).2.1
    let pattern := (scanChunk (c :: cs)).2.2
    if star && chunk.isEmpty then
      (!name.contains Separator, none)
    else
      match nextName star chunk pattern.isEmpty name with
      | .found t => matchLoop fuel pattern t
      | .badPattern => (false, some ErrBadPattern)
      | .notFound => (false, none)

/-- Go `filepath.Match(pattern, name)`. -/
def filepathMatch : Matcher :=
  fun pattern name =>
    matchLoop (utf8Bytes pattern).length (utf8Bytes pattern) (utf8Bytes name)

/-! ## Vocabulary of the claims about patterns -/

/-- A pattern the matcher reports as malformed: for some name `Match` returns
`ErrBadPattern`. -/
def Malformed (pattern : String) : Prop :=
  ∃ name : String, (filepathMatch pattern name).2 ≠ none

/-- Every chunk of a pattern is well formed: `matchChunk` reports no bad
pattern on it. Whether it does depends on the chunk only, not on the text it
is tried on (`matchChunk_bad_iff`). This is a notion of the proofs, not a part
of `Match`. -/
def chunksWellFormed : Nat → List Nat → Bool
  | _, [] => true
  | 0, _ :: _ => false
  | fuel + 1, c :: cs =>
    (matchChunk (scanChunk (c :: cs)).2.1 [] != .badPattern) &&
      chunksWellFormed fuel (scanChunk (c :: cs)).2.2

/-- A name without bracket expression or escape: none of its characters is
`[` or `\`. -/
def isPlain (p : String) : Bool :=
  p.data.all (fun c => c != '[' && c != '\\')

/-- Bytes without a bracket expression or an escape: none of them is `[` or
`\`. -/
def Plain (l : List Nat) : Prop :=
  ∀ c ∈ l, c ≠ 91 ∧ c ≠ 92

/-- A chunk of `?` and ordinary bytes read against a text: `?` takes one rune
unless the text begins with the separator, every other byte takes itself; the
text left over is returned. -/
def chunkRest : List Nat → List Nat → Option (List Nat)
  | [], s => some s
  | _ :: _, [] => none
  | c :: cs, u :: us =>
    if c = 63 then
      if u = Separator then none else chunkRest cs ((u :: us).drop (decodeRune (u :: us)).2)
    else if c = u then chunkRest cs us
    else none

/-- The words "`s` ends with `suf`" of the claims, Go `strings.HasSuffix`. -/
def HasSuffix (s suf : String) : Bool :=
  suf.data.isSuffixOf s.data

/-- Patterns and names with the result of `filepath.Match`: whether the name
matches and whether `ErrBadPattern` is returned. Vectors of the tests of the
Go package (`path/filepath/match_test.go`) come first, then a name of one
three-byte character under `*??`, patterns with a fault after the point where
the match fails, and patterns and names used with the claims. -/
def matchTests : List (String × String × Bool × Bool) := [
  ("abc", "abc", true, false),
  ("*", "abc", true, false),
  ("*c", "abc", true, false),
  ("a*", "a", true, false),
  ("a*", "abc", true, false),
  ("a*", "ab/c", false, false),
  ("a*/b", "abc/b", true, false),
  ("a*/b", "a/c/b", false, false),
  ("a*b*c*d*e*/f", "axbxcxdxe/f", true, false),
  ("a*b*c*d*e*/f", "axbxcxdxexxx/f", true, false),
  ("a*b*c*d*e*/f", "axbxcxdxe/xxx/f", false, false),
  ("a*b*c*d*e*/f", "axbxcxdxexxx/fff", false, false),
  ("a*b?c*x", "abxbbxdbxebxczzx", true, false),
  ("a*b?c*x", "abxbbxdbxebxczzy", false, false),
  ("ab[c]", "abc", true, false),
  ("ab[b-d]", "abc", true, false),
  ("ab[e-g]", "abc", false, false),
  ("ab[^c]", "abc", false, false),
  ("ab[^b-d]", "abc", false, false),
  ("ab[^e-g]", "abc", true, false),
  ("a\\*b", "a*b", true, false),
  ("a\\*b", "ab", false, false),
  ("a?b", "a☺b", true, false),
  ("a[^a]b", "a☺b", true, false),
  ("a???b", "a☺b", false, false),
  ("a[^a][^a][^a]b", "a☺b", false, false),
  ("[a-ζ]*", "α", true, false),
  ("*[a-ζ]", "A", false, false),
  ("a?b", "a/b", false, false),
  ("a*b", "a/b", false, false),
  ("[\\]a]", "]", true, false),
  ("[\\-]", "-", true, false),
  ("[x\\-]", "x", true, false),
  ("[x\\-]", "-", true, false),
  ("[x\\-]", "z", false, false),
  ("[\\-x]", "x", true, false),
  ("[\\-x]", "-", true, false),
  ("[\\-x]", "a", false, false),
  ("[]a]", "]", false, true),
  ("[-]", "-", false, true),
  ("[x-]", "x", false, true),
  ("[x-]", "-", false, true),
  ("[x-]", "z", false, true),
  ("[-x]", "x", false, true),
  ("[-x]", "-", false, true),
  ("[-x]", "a", false, true),
  ("\\", "a", false, true),
  ("[a-b-c]", "a", false, true),
  ("[", "a", false, true),
  ("[^", "a", false, true),
  ("[^bc", "a", false, true),
  ("a[", "a", false, true),
  ("a[", "ab", false, true),
  ("a[", "x", false, true),
  ("a/b[", "x", false, true),
  ("*x", "xxx", true, false),
  ("*??", "€", true, false),
  ("a*[", "b", false, false),
  ("[b-a]*[", "x", false, false),
  ("prod-*", "prod-eu/cluster1", false, false),
  ("dev[1]", "dev[1]", false, false),
  ("*", "team/dev", false, false),
  ("*-production", "eu/west-production", false, false)]

/-! ## Vocabulary of the specification of a context line -/

/-- The white-space separated fields of a text, as a check written from the
words: `splitsInto s fields` holds when `s` is white space, then the first
field (not empty, free of white space, followed by white space or by the end
of the text), then the remaining fields in the same way, and nothing but white
space after the last field. -/
def splitsInto : List Char → List (List Char) → Bool
  | s, [] => s.all isSpace
  | s, f :: fs =>
    !f.isEmpty && f.all (fun c => !isSpace c) && f.isPrefixOf (s.dropWhile isSpace) &&
      ((((s.dropWhile isSpace).drop f.length).head?.map isSpace).getD true) &&
      splitsInto ((s.dropWhile isSpace).drop f.length) fs

/-! ## Vocabulary of the classifier's specification -/

/-- A token is a flag when it starts with `-`. -/
def isFlag (t : String) : Bool :=
  HasPrefix t "-"

/-- A recognized value-taking flag: a key of `knownShortFlags` or of
`knownLongFlags`. -/
def takesValue (t : String) : Bool :=
  knownShortFlags.contains t || knownLongFlags.contains t

/-- The tokens of an argument list that are neither a flag nor the value
consumed by a preceding recognized value-taking flag, in order. This follows
the wording of the specification, not the loop of `ExtractCommand`. -/
def positionalTokens : List String → List String
  | [] => []
  | [t] => if isFlag t then [] else [t]
  | t :: v :: rest =>
    if isFlag t then
      if takesValue t then positionalTokens rest else positionalTokens (v :: rest)
    else
      t :: positionalTokens (v :: rest)

/-- An argument list that consists only of flags: a concatenation of groups,
each group being a flag that is not a recognized value-taking flag, or a
recognized value-taking flag followed by one arbitrary value token; the value
may be missing only for the last group. -/
inductive FlagsOnly : List String → Prop where
  | nil : FlagsOnly []
  | bare (t : String) (rest : List String) :
      isFlag t = true → takesValue t = false → FlagsOnly rest → FlagsOnly (t :: rest)
  | valued (f v : String) (rest : List String) :
      takesValue f = true → FlagsOnly rest → FlagsOnly (f :: v :: rest)
  | last (f : String) : takesValue f = true → FlagsOnly [f]

/-! ## Sample worlds -/

/-- A world with a configuration protecting `prod-main`, currently on it. -/
def protectedWorld : World where
  configExists := .ok true
  configLoad := .ok ⟨["staging", "prod-main"]⟩
  getCurrentContext := .ok "prod-main"
  filepathMatch := exactNameMatch

/-- A world without a configuration file: loading would fail, and a context
lookup would succeed. -/
def unconfiguredWorld : World where
  configExists := .ok false
  configLoad := .error ⟨"open .kubectl-guard.yaml: no such file or directory"⟩
  getCurrentContext := .ok "prod-main"
  filepathMatch := exactNameMatch

/-- A world whose configuration protects `prod-main` but where `kubectl`
cannot report the current context. -/
def contextlessWorld : World where
  configExists := .ok true
  configLoad := .ok ⟨["prod-main"]⟩
  getCurrentContext := .error ⟨"exit status 1"⟩
  filepathMatch := exactNameMatch

/-! ## Helper lemmas -/

theorem knownLong_props : ∀ t ∈ knownLongFlags,
    HasPrefix t "--" = true ∧ Contains t "=" = false := by decide

theorem knownShort_props : ∀ t ∈ knownShortFlags,
    HasPrefix t "-" = true ∧ HasPrefix t "--" = false := by decide

theorem hasPrefix_dash_of_dashdash (t : String) (h : HasPrefix t "--" = true) :
    HasPrefix t "-" = true := by
  unfold HasPrefix at *
  have h1 : ("--" : String).data = ['-', '-'] := rfl
  have h2 : ("-" : String).data = ['-'] := rfl
  rw [h1] at h
  rw [h2]
  cases hd : t.data with
  | nil => rw [hd] at h; simp [List.isPrefixOf] at h
  | cons a l =>
    rw [hd] at h
    simp [List.isPrefixOf] at h ⊢
    exact h.1

/-- The test the loop applies to a flag token to decide whether the next
token is skipped coincides with membership in one of the two flag tables. -/
theorem consumes_eq_takesValue (t : String) :
    (if HasPrefix t "--" then (!Contains t "=" && knownLongFlags.contains t)
      else (HasPrefix t "-" && knownShortFlags.contains t)) = takesValue t := by
  unfold takesValue
  by_cases hl : t ∈ knownLongFlags
  · have h := knownLong_props t hl
    have hs : t ∉ knownShortFlags := fun hs => by
      have h2 := (knownShort_props t hs).2
      rw [h.1] at h2
      exact absurd h2 (by decide)
    simp [h.1, h.2, hl, hs]
  · by_cases hs : t ∈ knownShortFlags
    · have h := knownShort_props t hs
      simp [h.1, h.2, hl, hs]
    · simp [hl, hs]

theorem takesValue_isFlag (t : String) (h : takesValue t = true) : isFlag t = true := by
  unfold takesValue at h
  unfold isFlag
  simp only [Bool.or_eq_true, List.contains_eq_any_beq, List.any_eq_true, beq_iff_eq] at h
  rcases h with ⟨x, h, rfl⟩ | ⟨x, h, rfl⟩
  · exact (knownShort_props t h).1
  · exact hasPrefix_dash_of_dashdash t (knownLong_props t h).1

theorem extractLoop_nil (skipNext : Bool) (cmd : String) :
    extractLoop [] skipNext cmd = (cmd, "") := by
  simp [extractLoop]

theorem extractLoop_skip (arg : String) (rest : List String) (cmd : String) :
    extractLoop (arg :: rest) true cmd = extractLoop rest false cmd := by
  simp [extractLoop]

theorem extractLoop_flag (t : String) (rest : List String) (cmd : String)
    (h : isFlag t = true) :
    extractLoop (t :: rest) false cmd = extractLoop rest (takesValue t) cmd := by
  unfold isFlag at h
  rw [← consumes_eq_takesValue t, extractLoop, h]
  generalize HasPrefix t "--" = a
  generalize Contains t "=" = b
  generalize knownLongFlags.contains t = c
  generalize knownShortFlags.contains t = d
  cases a <;> cases b <;> cases c <;> cases d <;> rfl

theorem extractLoop_positional (t : String) (rest : List String) (cmd : String)
    (h : isFlag t = false) :
    extractLoop (t :: rest) false cmd
      = if cmd = "" then extractLoop rest false t else (cmd, t) := by
  unfold isFlag at h
  have h2 : HasPrefix t "--" = false := by
    cases h2 : HasPrefix t "--" with
    | false => rfl
    | true => rw [hasPrefix_dash_of_dashdash t h2] at h; exact absurd h (by decide)
  simp [extractLoop, h, h2]

theorem isContextProtectedLoop_iff (fmatch : Matcher) (P : List String) (c : String) :
    isContextProtectedLoop fmatch P c = true ↔ ∃ p ∈ P, (fmatch p c).1 = true := by
  induction P with
  | nil => simp [isContextProtectedLoop]
  | cons p rest ih =>
    unfold isContextProtectedLoop
    by_cases h : (fmatch p c).1 = true
    · simp [h]
    · simp [h, ih]

theorem positionalTokens_valued (t : String) (rest : List String)
    (hv : takesValue t = true) :
    positionalTokens (t :: rest) = positionalTokens (rest.drop 1) := by
  have hf := takesValue_isFlag t hv
  cases rest with
  | nil => simp [positionalTokens, hf]
  | cons v r => simp [positionalTokens, hf, hv]

theorem positionalTokens_bare (t : String) (rest : List String)
    (hf : isFlag t = true) (hv : takesValue t = false) :
    positionalTokens (t :: rest) = positionalTokens rest := by
  cases rest with
  | nil => simp [positionalTokens, hf]
  | cons v r => simp [positionalTokens, hf, hv]

theorem positionalTokens_positional (t : String) (rest : List String)
    (hf : isFlag t = false) :
    positionalTokens (t :: rest) = t :: positionalTokens rest := by
  cases rest with
  | nil => simp [positionalTokens, hf]
  | cons v r => simp [positionalTokens, hf]

/-- The loop in terms of the positional tokens: once a command is held, the
next positional token ends the loop as the subcommand; while none is held,
empty positional tokens leave the state unchanged. -/
theorem extractLoop_positionalTokens : ∀ (n : Nat) (args : List String), args.length ≤ n →
    (∀ cmd : String, cmd ≠ "" →
      extractLoop args false cmd = (cmd, (positionalTokens args).headD "")) ∧
    (extractLoop args false ""
      = ((((positionalTokens args).dropWhile (fun t => t == "")).headD ""),
         ((((positionalTokens args).dropWhile (fun t => t == "")).drop 1).headD ""))) := by
  intro n
  induction n with
  | zero =>
    intro args h
    have : args = [] := List.length_eq_zero.1 (Nat.le_zero.1 h)
    subst this
    simp [extractLoop, positionalTokens]
  | succ n ih =>
    intro args h
    cases args with
    | nil => simp [extractLoop, positionalTokens]
    | cons t rest =>
      have hlen : rest.length ≤ n := by simpa using h
      by_cases hf : isFlag t = true
      · by_cases hv : takesValue t = true
        · rw [positionalTokens_valued t rest hv]
          cases rest with
          | nil =>
            constructor
            · intro cmd _
              rw [extractLoop_flag t [] cmd hf, extractLoop_nil]
              simp [positionalTokens]
            · rw [extractLoop_flag t [] "" hf, extractLoop_nil]
              simp [positionalTokens]
          | cons v r =>
            have hr : r.length ≤ n := by
              simp only [List.length_cons] at hlen
              omega
            constructor
            · intro cmd hc
              rw [extractLoop_flag t (v :: r) cmd hf, hv, extractLoop_skip]
              exact (ih r hr).1 cmd hc
            · rw [extractLoop_flag t (v :: r) "" hf, hv, extractLoop_skip]
              exact (ih r hr).2
        · have hv2 : takesValue t = false := by simpa using hv
          rw [positionalTokens_bare t rest hf hv2]
          constructor
          · intro cmd hc
            rw [extractLoop_flag t rest cmd hf, hv2]
            exact (ih rest hlen).1 cmd hc
          · rw [extractLoop_flag t rest "" hf, hv2]
            exact (ih rest hlen).2
      · have hf2 : isFlag t = false := by simpa using hf
        rw [positionalTokens_positional t rest hf2]
        constructor
        · intro cmd hc
          rw [extractLoop_positional t rest cmd hf2, if_neg hc]
          simp
        · rw [extractLoop_positional t rest "" hf2, if_pos rfl]
          by_cases ht : t = ""
          · subst ht
            rw [(ih rest hlen).2]
            simp [List.dropWhile]
          · have hb : (t == "") = false := by simpa using ht
            rw [(ih rest hlen).1 t ht]
            simp [List.dropWhile, hb]

theorem addContextLoop_iff (L : List String) (x : String) :
    addContextLoop L x = true ↔ x ∈ L := by
  induction L with
  | nil => simp [addContextLoop]
  | cons a l ih =>
    unfold addContextLoop
    by_cases h : a = x
    · simp [h]
    · have h2 : ¬ x = a := fun h3 => h h3.symm
      simp [h, h2, ih]

theorem removeContextLoop_eq (x : String) (pre rest : List String) (hpre : x ∉ pre) :
    removeContextLoop (pre ++ rest) x pre.length rest
      = (decide (x ∈ rest), pre ++ rest.erase x) := by
  induction rest generalizing pre with
  | nil => simp [removeContextLoop]
  | cons a l ih =>
    unfold removeContextLoop
    by_cases h : a = x
    · subst h
      simp
    · have h2 : ¬ x = a := fun h3 => h h3.symm
      have hb : (a == x) = false := by simpa using h
      have hpre2 : x ∉ pre ++ [a] := by simp [hpre, h2]
      have := ih (pre ++ [a]) hpre2
      simp only [List.append_assoc, List.singleton_append, List.length_append,
        List.length_singleton] at this
      simp [h, h2, hb, this]

theorem addContext_eq (L : List String) (x : String) :
    Config.AddContext ⟨L⟩ x = if x ∈ L then (false, ⟨L⟩) else (true, ⟨L ++ [x]⟩) := by
  unfold Config.AddContext
  by_cases h : x ∈ L
  · simp [(addContextLoop_iff L x).2 h, h]
  · have h2 : addContextLoop L x = false := by
      rw [← Bool.not_eq_true, addContextLoop_iff]
      exact h
    simp [h2, h]

theorem removeContext_eq (L : List String) (x : String) :
    Config.RemoveContext ⟨L⟩ x = (decide (x ∈ L), ⟨L.erase x⟩) := by
  have h := removeContextLoop_eq x [] L (List.not_mem_nil x)
  simp only [List.nil_append, List.length_nil] at h
  simp [Config.RemoveContext, h]

theorem extractCommand_nil : ExtractCommand [] = ("", "") := rfl

/-- `IsStateAltering` in closed form over the extracted pair. -/
theorem isStateAltering_eq (args : List String) :
    IsStateAltering args =
      (!((ExtractCommand args).1 == "rollout" &&
          safeRolloutSubcommands.contains (ExtractCommand args).2) &&
        stateAlteringCommands.contains (ExtractCommand args).1) := by
  have hempty : stateAlteringCommands.contains "" = false := by decide
  cases args with
  | nil => rw [extractCommand_nil]; decide
  | cons a l =>
    generalize hec : ExtractCommand (a :: l) = r
    obtain ⟨cmd, sub⟩ := r
    have hl : ((a :: l).length == 0) = false := by simp
    simp only [IsStateAltering, hec, hl]
    by_cases hc : cmd = ""
    · subst hc
      rw [hempty]
      generalize (("" : String) == "rollout" && safeRolloutSubcommands.contains sub) = b
      cases b <;> simp
    · have hb : (cmd == "") = false := by simpa using hc
      rw [hb]
      generalize (cmd == "rollout" && safeRolloutSubcommands.contains sub) = b
      generalize stateAlteringCommands.contains cmd = d
      cases b <;> simp

/-- `IsSafeCommand` in closed form over the extracted pair. -/
theorem isSafeCommand_eq (args : List String) :
    IsSafeCommand args =
      ((ExtractCommand args).1 == "" ||
        ((ExtractCommand args).1 == "rollout" &&
          safeRolloutSubcommands.contains (ExtractCommand args).2) ||
        safeCommands.contains (ExtractCommand args).1) := by
  cases args with
  | nil => rw [extractCommand_nil]; decide
  | cons a l =>
    generalize hec : ExtractCommand (a :: l) = r
    obtain ⟨cmd, sub⟩ := r
    have hl : ((a :: l).length == 0) = false := by simp
    simp only [IsSafeCommand, hec, hl]
    by_cases hc : cmd = ""
    · subst hc
      simp
    · have hb : (cmd == "") = false := by simpa using hc
      rw [hb]
      generalize (cmd == "rollout" && safeRolloutSubcommands.contains sub) = b
      generalize safeCommands.contains cmd = d
      cases b <;> simp

theorem getCommandDescription_eq (args : List String) :
    GetCommandDescription args =
      if (ExtractCommand args).2 ≠ "" then
        (ExtractCommand args).1 ++ " " ++ (ExtractCommand args).2
      else (ExtractCommand args).1 := by
  generalize hec : ExtractCommand args = r
  obtain ⟨cmd, sub⟩ := r
  simp [GetCommandDescription, hec]

theorem stateAltering_props : ∀ t ∈ stateAlteringCommands,
    t ≠ "" ∧ ' ' ∉ t.data ∧ t ∉ safeCommands := by decide

theorem takeWhile_before_space (l r : List Char) (h : ' ' ∉ l) :
    (l ++ ' ' :: r).takeWhile (fun c => c != ' ') = l := by
  induction l with
  | nil => simp [List.takeWhile]
  | cons a t ih =>
    have ha : a ≠ ' ' := fun e => h (e ▸ List.mem_cons_self _ _)
    have hb : (a != ' ') = true := by simpa using ha
    have ht : ' ' ∉ t := fun e => h (List.mem_cons_of_mem _ e)
    simp [List.takeWhile, hb, ih ht]

theorem takeWhile_no_space (l : List Char) (h : ' ' ∉ l) :
    l.takeWhile (fun c => c != ' ') = l := by
  induction l with
  | nil => simp [List.takeWhile]
  | cons a t ih =>
    have ha : a ≠ ' ' := fun e => h (e ▸ List.mem_cons_self _ _)
    have hb : (a != ' ') = true := by simpa using ha
    have ht : ' ' ∉ t := fun e => h (List.mem_cons_of_mem _ e)
    simp [List.takeWhile, hb, ih ht]

/-- Once the loop has returned a non-empty subcommand it has left through its
`break`, so appended tokens are never read. -/
theorem extractLoop_append (args extra : List String) (skipNext : Bool) (cmd : String)
    (h : (extractLoop args skipNext cmd).2 ≠ "") :
    extractLoop (args ++ extra) skipNext cmd = extractLoop args skipNext cmd := by
  induction args generalizing skipNext cmd with
  | nil => simp [extractLoop] at h
  | cons a l ih =>
    rw [List.cons_append]
    simp only [extractLoop] at h ⊢
    split_ifs at h ⊢ <;> first | exact ih _ _ h | rfl

/-! ## `filepath.Match`: the error of a pattern does not depend on the name -/

theorem matchLoop_nil (fuel : Nat) (name : List Nat) :
    matchLoop fuel [] name = (name.isEmpty, none) := by
  cases fuel <;> rfl

theorem matchLoop_succ (fuel : Nat) (p : List Nat) (hp : p ≠ []) (name : List Nat) :
    matchLoop (fuel + 1) p name =
      if ((scanChunk p).1 && (scanChunk p).2.1.isEmpty) = true then
        (!name.contains Separator, none)
      else
        match nextName (scanChunk p).1 (scanChunk p).2.1 (scanChunk p).2.2.isEmpty name with
        | .found t => matchLoop fuel (scanChunk p).2.2 t
        | .badPattern => (false, some ErrBadPattern)
        | .notFound => (false, none) := by
  cases p with
  | nil => exact absurd rfl hp
  | cons c cs => rfl

theorem chunksWellFormed_nil (fuel : Nat) : chunksWellFormed fuel [] = true := by
  cases fuel <;> rfl

theorem chunksWellFormed_succ (fuel : Nat) (p : List Nat) (hp : p ≠ []) :
    chunksWellFormed (fuel + 1) p =
      ((matchChunk (scanChunk p).2.1 [] != .badPattern) &&
        chunksWellFormed fuel (scanChunk p).2.2) := by
  cases p with
  | nil => exact absurd rfl hp
  | cons c cs => rfl

/-- The chunk left after a bracket expression does not depend on the rune
compared against its ranges. -/
theorem classLoop_rest (fuel : Nat) :
    ∀ (chunk : List Nat) (r r' : Nat) (m m' : Bool) (n : Nat),
      (classLoop fuel chunk r m n).map Prod.snd
        = (classLoop fuel chunk r' m' n).map Prod.snd := by
  induction fuel with
  | zero => intro chunk r r' m m' n; rfl
  | succ f ih =>
    intro chunk r r' m m' n
    simp only [classLoop]
    split_ifs with h1
    · rfl
    · cases getEsc chunk with
      | none => rfl
      | some p =>
        obtain ⟨lo, chunk1⟩ := p
        simp only []
        split_ifs with h2
        · cases getEsc chunk1.tail with
          | none => rfl
          | some q =>
            obtain ⟨hi, chunk2⟩ := q
            exact ih chunk2 r r' _ _ _
        · exact ih chunk1 r r' _ _ _

/-- Whether `matchChunk` reports a bad pattern depends on the chunk only. -/
theorem matchChunkLoop_bad_iff (fuel : Nat) :
    ∀ (chunk s : List Nat) (failed : Bool),
      matchChunkLoop fuel chunk s failed = .badPattern ↔
        matchChunkLoop fuel chunk [] true = .badPattern := by
  induction fuel with
  | zero =>
    intro chunk s failed
    cases chunk with
    | nil => cases failed <;> simp [matchChunkLoop]
    | cons c cs => simp [matchChunkLoop]
  | succ f ih =>
    intro chunk s failed
    cases chunk with
    | nil => cases failed <;> simp [matchChunkLoop]
    | cons c cs =>
      simp only [matchChunkLoop]
      by_cases h1 : c = 91
      · simp only [if_pos h1]
        generalize (if (failed || s.isEmpty) = true then 0 else (decodeRune s).1) = r
        generalize (if (failed || s.isEmpty) = true then s
          else s.drop (decodeRune s).2) = s1
        generalize (if decide (cs.head? = some 94) = true then cs.tail else cs) = cs1
        simp only [Bool.true_or, if_true]
        have hrest := classLoop_rest f cs1 r 0 false false 0
        cases hc1 : classLoop f cs1 r false 0 with
        | none =>
          rw [hc1] at hrest
          cases hc2 : classLoop f cs1 0 false 0 with
          | none => simp
          | some q => rw [hc2] at hrest; simp at hrest
        | some p =>
          rw [hc1] at hrest
          cases hc2 : classLoop f cs1 0 false 0 with
          | none => rw [hc2] at hrest; simp at hrest
          | some q =>
            rw [hc2] at hrest
            obtain ⟨m, cs2⟩ := p
            obtain ⟨m', cs3⟩ := q
            simp only [Option.map_some', Option.some.injEq] at hrest
            subst hrest
            simp only []
            rw [ih cs2 s1 _, ih cs2 [] _]
      · by_cases h2 : c = 63
        · simp only [if_neg h1, if_pos h2, Bool.true_or, if_true]
          split_ifs
          · exact ih cs s true
          · rw [ih cs _ _, ih cs [] true]
        · by_cases h3 : c = 92
          · simp only [if_neg h1, if_neg h2, if_pos h3, Bool.true_or, if_true]
            cases cs with
            | nil => simp
            | cons d ds =>
              simp only []
              split_ifs
              · exact ih ds s true
              · rw [ih ds s.tail _, ih ds [] true]
          · simp only [if_neg h1, if_neg h2, if_neg h3, Bool.true_or, if_true]
            split_ifs
            · exact ih cs s true
            · rw [ih cs s.tail _, ih cs [] true]

theorem matchChunk_bad_iff (chunk s : List Nat) :
    matchChunk chunk s = .badPattern ↔ matchChunk chunk [] = .badPattern := by
  unfold matchChunk
  rw [matchChunkLoop_bad_iff _ chunk s false, matchChunkLoop_bad_iff _ chunk [] false]

theorem scanStars_head (p : List Nat) (star : Bool) :
    (scanStars p star).2.head? ≠ some 42 := by
  induction p generalizing star with
  | nil => simp [scanStars]
  | cons c cs ih =>
    by_cases hc : c = 42
    · simp only [scanStars, if_pos hc]
      exact ih true
    · simp only [scanStars, if_neg hc]
      simpa using hc

theorem scanLoop_chunk_nil (q : List Nat) (hq : q.head? ≠ some 42)
    (h : (scanLoop q false).1 = []) : (scanLoop q false).2 = [] := by
  cases q with
  | nil => rfl
  | cons c cs =>
    have hc : c ≠ 42 := by simpa using hq
    rw [scanLoop.eq_def] at h
    simp only [] at h
    split_ifs at h
    cases cs <;> simp at h

/-- When the scanned chunk is empty the pattern is used up. -/
theorem scanChunk_chunk_nil (p : List Nat) (h : (scanChunk p).2.1 = []) :
    (scanChunk p).2.2 = [] :=
  scanLoop_chunk_nil _ (scanStars_head p false) h

theorem starLoop_bad (chunk : List Nat) (last : Bool) (name : List Nat)
    (h : starLoop chunk last name = .badPattern) : matchChunk chunk [] = .badPattern := by
  induction name with
  | nil => simp [starLoop] at h
  | cons c cs ih =>
    simp only [starLoop] at h
    split_ifs at h with h1
    cases hm : matchChunk chunk cs with
    | badPattern => exact (matchChunk_bad_iff chunk cs).1 hm
    | noMatch => rw [hm] at h; exact ih h
    | matched t =>
      rw [hm] at h
      simp only [] at h
      split_ifs at h
      exact ih h

theorem starLoop_found (chunk : List Nat) (last : Bool) (name t : List Nat)
    (h : starLoop chunk last name = .found t) : matchChunk chunk [] ≠ .badPattern := by
  induction name with
  | nil => simp [starLoop] at h
  | cons c cs ih =>
    simp only [starLoop] at h
    split_ifs at h with h1
    cases hm : matchChunk chunk cs with
    | badPattern => rw [hm] at h; simp at h
    | noMatch => rw [hm] at h; exact ih h
    | matched t =>
      intro hbad
      rw [(matchChunk_bad_iff chunk cs).2 hbad] at hm
      exact ChunkResult.noConfusion hm

theorem nextName_bad (star : Bool) (chunk : List Nat) (last : Bool) (name : List Nat)
    (h : nextName star chunk last name = .badPattern) :
    matchChunk chunk [] = .badPattern := by
  unfold nextName at h
  cases hm : matchChunk chunk name with
  | badPattern => exact (matchChunk_bad_iff chunk name).1 hm
  | noMatch =>
    rw [hm] at h
    simp only [] at h
    split_ifs at h
    exact starLoop_bad chunk last name h
  | matched t =>
    rw [hm] at h
    simp only [] at h
    split_ifs at h
    exact starLoop_bad chunk last name h

theorem nextName_found (star : Bool) (chunk : List Nat) (last : Bool) (name t : List Nat)
    (h : nextName star chunk last name = .found t) :
    matchChunk chunk [] ≠ .badPattern := by
  unfold nextName at h
  cases hm : matchChunk chunk name with
  | badPattern => rw [hm] at h; simp at h
  | noMatch =>
    rw [hm] at h
    simp only [] at h
    split_ifs at h
    exact starLoop_found chunk last name t h
  | matched u =>
    intro hbad
    rw [(matchChunk_bad_iff chunk name).2 hbad] at hm
    exact ChunkResult.noConfusion hm

/-- A pattern that matches some name has no chunk with a syntax error. -/
theorem matchLoop_true_wellFormed (fuel : Nat) :
    ∀ (p name : List Nat), (matchLoop fuel p name).1 = true →
      chunksWellFormed fuel p = true := by
  induction fuel with
  | zero =>
    intro p name h
    cases p with
    | nil => rfl
    | cons c cs => simp [matchLoop] at h
  | succ f ih =>
    intro p name h
    by_cases hp : p = []
    · subst hp; rfl
    · rw [matchLoop_succ f p hp] at h
      rw [chunksWellFormed_succ f p hp]
      split_ifs at h with hstar
      · have hchunk : (scanChunk p).2.1 = [] := by
          simp only [Bool.and_eq_true, List.isEmpty_iff] at hstar
          exact hstar.2
        rw [scanChunk_chunk_nil p hchunk, hchunk, chunksWellFormed_nil]
        decide
      · cases hn : nextName (scanChunk p).1 (scanChunk p).2.1 (scanChunk p).2.2.isEmpty name with
        | badPattern => rw [hn] at h; simp at h
        | notFound => rw [hn] at h; simp at h
        | found t =>
          rw [hn] at h
          have h1 := nextName_found _ _ _ _ _ hn
          have h2 := ih _ t h
          rw [h2]
          simpa using h1

/-- A pattern whose chunks are all well formed never yields an error. -/
theorem wellFormed_matchLoop (fuel : Nat) :
    ∀ (p name : List Nat), chunksWellFormed fuel p = true →
      (matchLoop fuel p name).2 = none := by
  induction fuel with
  | zero =>
    intro p name h
    cases p with
    | nil => rfl
    | cons c cs => simp [chunksWellFormed] at h
  | succ f ih =>
    intro p name h
    by_cases hp : p = []
    · subst hp; rfl
    · rw [chunksWellFormed_succ f p hp, Bool.and_eq_true] at h
      obtain ⟨h1, h2⟩ := h
      have h1' : matchChunk (scanChunk p).2.1 [] ≠ .badPattern := by simpa using h1
      rw [matchLoop_succ f p hp]
      split_ifs with hstar
      · rfl
      · cases hn : nextName (scanChunk p).1 (scanChunk p).2.1 (scanChunk p).2.2.isEmpty name with
        | badPattern => exact absurd (nextName_bad _ _ _ _ hn) h1'
        | notFound => rfl
        | found t => exact ih _ t h2

/-- A malformed pattern matches no name. -/
theorem malformed_never_matches (m : String) (hm : Malformed m) (c : String) :
    (filepathMatch m c).1 = false := by
  obtain ⟨name, herr⟩ := hm
  rw [← Bool.not_eq_true]
  intro htrue
  exact herr (wellFormed_matchLoop _ _ _ (matchLoop_true_wellFormed _ _ _ htrue))

/-! ## `utf8.DecodeRuneInString`: widths -/

theorem firstByte_spec (b sz lo hi : Nat) (h : firstByte b = some (sz, lo, hi)) :
    128 ≤ lo ∧ (sz = 2 ∨ sz = 3 ∨ sz = 4) := by
  unfold firstByte at h
  split_ifs at h <;> simp only [Option.some.injEq, Prod.mk.injEq] at h <;>
    obtain ⟨rfl, rfl, rfl⟩ := h <;> simp

/-- The width `decodeRune` returns on a non-empty text is 1, or it is 2, 3 or
4 and the bytes after the first inside that width are all at least 128. -/
theorem decodeRune_width (s0 : Nat) (rest : List Nat) :
    (decodeRune (s0 :: rest)).2 = 1 ∨
    ((decodeRune (s0 :: rest)).2 = 2 ∧ ∃ s1 r, rest = s1 :: r ∧ 128 ≤ s1) ∨
    ((decodeRune (s0 :: rest)).2 = 3 ∧
      ∃ s1 s2 r, rest = s1 :: s2 :: r ∧ 128 ≤ s1 ∧ 128 ≤ s2) ∨
    ((decodeRune (s0 :: rest)).2 = 4 ∧
      ∃ s1 s2 s3 r, rest = s1 :: s2 :: s3 :: r ∧ 128 ≤ s1 ∧ 128 ≤ s2 ∧ 128 ≤ s3) := by
  by_cases h0 : s0 < 128
  · left
    simp [decodeRune, h0]
  · cases hf : firstByte s0 with
    | none =>
      left
      simp [decodeRune, h0, hf]
    | some p =>
      obtain ⟨sz, lo, hi⟩ := p
      obtain ⟨hlo, hsz⟩ := firstByte_spec s0 sz lo hi hf
      cases rest with
      | nil =>
        left
        rcases hsz with rfl | rfl | rfl <;> simp [decodeRune, h0, hf]
      | cons s1 rest1 =>
        by_cases h1 : s1 < lo ∨ hi < s1
        · left
          simp only [decodeRune, if_neg h0, hf, if_pos h1]
          split_ifs <;> rfl
        · have hs1 : 128 ≤ s1 := by omega
          by_cases hsz2 : sz ≤ 2
          · by_cases hlen : (s1 :: rest1).length + 1 < sz
            · left
              simp only [decodeRune, if_neg h0, hf, if_pos hlen]
            · right; left
              refine ⟨?_, s1, rest1, rfl, hs1⟩
              simp only [decodeRune, if_neg h0, hf, if_neg hlen, if_neg h1, if_pos hsz2]
          · cases rest1 with
            | nil =>
              left
              simp only [decodeRune, if_neg h0, hf, if_neg h1, if_neg hsz2]
              split_ifs <;> rfl
            | cons s2 rest2 =>
              by_cases h2 : s2 < 0x80 ∨ 0xBF < s2
              · left
                simp only [decodeRune, if_neg h0, hf, if_neg h1, if_neg hsz2, if_pos h2]
                split_ifs <;> rfl
              · have hs2 : 128 ≤ s2 := by omega
                by_cases hsz3 : sz ≤ 3
                · by_cases hlen : (s1 :: s2 :: rest2).length + 1 < sz
                  · left
                    simp only [decodeRune, if_neg h0, hf, if_pos hlen]
                  · right; right; left
                    refine ⟨?_, s1, s2, rest2, rfl, hs1, hs2⟩
                    simp only [decodeRune, if_neg h0, hf, if_neg hlen, if_neg h1,
                      if_neg hsz2, if_neg h2, if_pos hsz3]
                · cases rest2 with
                  | nil =>
                    left
                    simp only [decodeRune, if_neg h0, hf, if_neg h1, if_neg hsz2,
                      if_neg h2, if_neg hsz3]
                    split_ifs <;> rfl
                  | cons s3 rest3 =>
                    by_cases h3 : s3 < 0x80 ∨ 0xBF < s3
                    · left
                      simp only [decodeRune, if_neg h0, hf, if_neg h1, if_neg hsz2,
                        if_neg h2, if_neg hsz3, if_pos h3]
                      split_ifs <;> rfl
                    · have hs3 : 128 ≤ s3 := by omega
                      by_cases hlen : (s1 :: s2 :: s3 :: rest3).length + 1 < sz
                      · left
                        simp only [decodeRune, if_neg h0, hf, if_pos hlen]
                      · right; right; right
                        refine ⟨?_, s1, s2, s3, rest3, rfl, hs1, hs2, hs3⟩
                        simp only [decodeRune, if_neg h0, hf, if_neg hlen, if_neg h1,
                          if_neg hsz2, if_neg h2, if_neg hsz3, if_neg h3]

theorem decodeRune_pos (s0 : Nat) (rest : List Nat) : 1 ≤ (decodeRune (s0 :: rest)).2 := by
  rcases decodeRune_width s0 rest with h | ⟨h, _⟩ | ⟨h, _⟩ | ⟨h, _⟩ <;> omega

theorem decodeRune_ascii (s0 : Nat) (rest : List Nat) (h : s0 < 128) :
    decodeRune (s0 :: rest) = (s0, 1) := by
  simp [decodeRune, h]

/-- A rune read from a text does not reach over a byte below 128: on
`w ++ x :: more` with `w` not empty and `x < 128` the width is at most the
length of `w`. -/
theorem decodeRune_window (w : List Nat) (x : Nat) (more : List Nat) (hw : w ≠ [])
    (hx : x < 128) : (decodeRune (w ++ x :: more)).2 ≤ w.length := by
  cases w with
  | nil => exact absurd rfl hw
  | cons s0 w1 =>
    rw [List.cons_append]
    rcases decodeRune_width s0 (w1 ++ x :: more) with h | ⟨h, s1, r, he, h1⟩ |
        ⟨h, s1, s2, r, he, h1, h2⟩ | ⟨h, s1, s2, s3, r, he, h1, h2, h3⟩
    · rw [h]; simp
    · rw [h]
      cases w1 with
      | nil => simp at he; omega
      | cons a w2 => simp
    · rw [h]
      cases w1 with
      | nil => simp at he; omega
      | cons a w2 =>
        cases w2 with
        | nil => simp at he; omega
        | cons b w3 => simp
    · rw [h]
      cases w1 with
      | nil => simp at he; omega
      | cons a w2 =>
        cases w2 with
        | nil => simp at he; omega
        | cons b w3 =>
          cases w3 with
          | nil => simp at he; omega
          | cons c w4 => simp

/-! ## `filepath.Match`: the fuel is never exhausted -/

theorem getEsc_length (chunk : List Nat) (r : Nat) (rest : List Nat)
    (h : getEsc chunk = some (r, rest)) : rest.length < chunk.length := by
  cases chunk with
  | nil => simp [getEsc] at h
  | cons c cs =>
    simp only [getEsc] at h
    split_ifs at h with h1 h2
    · cases cs with
      | nil => simp at h
      | cons d ds =>
        simp only [] at h
        split_ifs at h
        simp only [Option.some.injEq, Prod.mk.injEq] at h
        rw [← h.2]
        have := decodeRune_pos d ds
        simp only [List.length_drop, List.length_cons]
        omega
    · simp only [] at h
      split_ifs at h
      simp only [Option.some.injEq, Prod.mk.injEq] at h
      rw [← h.2]
      have := decodeRune_pos c cs
      simp only [List.length_drop, List.length_cons]
      omega

/-- With fuel at least the length of the chunk the range loop gives the same
result whatever the fuel, and it leaves a shorter chunk. -/
theorem classLoop_fuel (f1 : Nat) :
    ∀ (f2 : Nat) (chunk : List Nat) (r : Nat) (m : Bool) (n : Nat),
      chunk.length ≤ f1 → chunk.length ≤ f2 →
        classLoop f1 chunk r m n = classLoop f2 chunk r m n ∧
        ∀ m' rest, classLoop f1 chunk r m n = some (m', rest) →
          rest.length < chunk.length := by
  induction f1 with
  | zero =>
    intro f2 chunk r m n h1 _
    have hc : chunk = [] := List.length_eq_zero.1 (Nat.le_zero.1 h1)
    subst hc
    cases f2 with
    | zero => exact ⟨rfl, fun _ _ h => by simp [classLoop] at h⟩
    | succ b => exact ⟨by simp [classLoop, getEsc], fun _ _ h => by simp [classLoop] at h⟩
  | succ a ih =>
    intro f2 chunk r m n h1 h2
    cases f2 with
    | zero =>
      have hc : chunk = [] := List.length_eq_zero.1 (Nat.le_zero.1 h2)
      subst hc
      exact ⟨by simp [classLoop, getEsc], fun _ _ h => by simp [classLoop, getEsc] at h⟩
    | succ b =>
      simp only [classLoop]
      split_ifs with hclose
      · refine ⟨rfl, fun m' rest h => ?_⟩
        simp only [Option.some.injEq, Prod.mk.injEq] at h
        rw [← h.2]
        cases chunk with
        | nil => simp at hclose
        | cons c cs => simp
      · cases hg : getEsc chunk with
        | none => exact ⟨rfl, fun _ _ h => by simp at h⟩
        | some p =>
          obtain ⟨lo, chunk1⟩ := p
          have hl1 := getEsc_length chunk lo chunk1 hg
          simp only []
          split_ifs with hdash
          · cases hg2 : getEsc chunk1.tail with
            | none => exact ⟨rfl, fun _ _ h => by simp at h⟩
            | some q =>
              obtain ⟨hi, chunk2⟩ := q
              have hl2 := getEsc_length chunk1.tail hi chunk2 hg2
              have hl3 : chunk1.tail.length ≤ chunk1.length := by simp
              have := ih b chunk2 r (m || (decide (lo ≤ r) && decide (r ≤ hi))) (n + 1)
                (by omega) (by omega)
              exact ⟨this.1, fun m' rest h => by have := this.2 m' rest h; omega⟩
          · have := ih b chunk1 r (m || (decide (lo ≤ r) && decide (r ≤ lo))) (n + 1)
              (by omega) (by omega)
            exact ⟨this.1, fun m' rest h => by have := this.2 m' rest h; omega⟩

/-- With fuel at least the length of the chunk `matchChunk` gives the same
result whatever the fuel. -/
theorem matchChunkLoop_fuel (f1 : Nat) :
    ∀ (f2 : Nat) (chunk s : List Nat) (failed : Bool),
      chunk.length ≤ f1 → chunk.length ≤ f2 →
        matchChunkLoop f1 chunk s failed = matchChunkLoop f2 chunk s failed := by
  induction f1 with
  | zero =>
    intro f2 chunk s failed h1 _
    have hc : chunk = [] := List.length_eq_zero.1 (Nat.le_zero.1 h1)
    subst hc
    cases f2 <;> simp [matchChunkLoop]
  | succ a ih =>
    intro f2 chunk s failed h1 h2
    cases chunk with
    | nil => cases f2 <;> simp [matchChunkLoop]
    | cons c cs =>
      cases f2 with
      | zero => simp at h2
      | succ b =>
        have ha : cs.length ≤ a := by simpa using h1
        have hb : cs.length ≤ b := by simpa using h2
        simp only [matchChunkLoop]
        by_cases hc1 : c = 91
        · simp only [if_pos hc1]
          generalize (if (failed || s.isEmpty) = true then 0 else (decodeRune s).1) = r
          generalize (if (failed || s.isEmpty) = true then s
            else s.drop (decodeRune s).2) = s1
          have hcs1 : (if decide (cs.head? = some 94) = true then cs.tail else cs).length
              ≤ cs.length := by
            split_ifs <;> simp
          generalize (if decide (cs.head? = some 94) = true then cs.tail else cs) = cs1 at hcs1
          have hcl := classLoop_fuel a b cs1 r false 0 (by omega) (by omega)
          rw [← hcl.1]
          cases hres : classLoop a cs1 r false 0 with
          | none => rfl
          | some p =>
            obtain ⟨m, cs2⟩ := p
            have := hcl.2 m cs2 hres
            exact ih b cs2 s1 _ (by omega) (by omega)
        · by_cases hc2 : c = 63
          · simp only [if_neg hc1, if_pos hc2]
            split_ifs <;> exact ih b cs _ _ ha hb
          · by_cases hc3 : c = 92
            · simp only [if_neg hc1, if_neg hc2, if_pos hc3]
              cases cs with
              | nil => rfl
              | cons d ds =>
                have ha' : ds.length ≤ a := by simp at ha; omega
                have hb' : ds.length ≤ b := by simp at hb; omega
                simp only []
                split_ifs <;> exact ih b ds _ _ ha' hb'
            · simp only [if_neg hc1, if_neg hc2, if_neg hc3]
              split_ifs <;> exact ih b cs _ _ ha hb


theorem scanLoop_length (n : Nat) :
    ∀ (q : List Nat) (inrange : Bool), q.length ≤ n →
      (scanLoop q inrange).1.length + (scanLoop q inrange).2.length = q.length := by
  induction n with
  | zero =>
    intro q inrange h
    have hq : q = [] := List.length_eq_zero.1 (Nat.le_zero.1 h)
    subst hq
    rfl
  | succ k ih =>
    intro q inrange h
    cases q with
    | nil => rfl
    | cons c cs =>
      have hcs : cs.length ≤ k := by simpa using h
      rw [scanLoop.eq_def]
      simp only []
      split_ifs
      · cases cs with
        | nil => rfl
        | cons d ds =>
          have hds : ds.length ≤ k := by simp at hcs; omega
          have := ih ds inrange hds
          simp only [List.length_cons]
          omega
      · have := ih cs true hcs
        simp only [List.length_cons]
        omega
      · have := ih cs false hcs
        simp only [List.length_cons]
        omega
      · simp
      · have := ih cs inrange hcs
        simp only [List.length_cons]
        omega
      · have := ih cs inrange hcs
        simp only [List.length_cons]
        omega

theorem scanStars_length (p : List Nat) (star : Bool) :
    (scanStars p star).2.length ≤ p.length := by
  induction p generalizing star with
  | nil => simp [scanStars]
  | cons c cs ih =>
    simp only [scanStars]
    split_ifs
    · have := ih true
      simp only [List.length_cons]
      omega
    · simp

/-- Every iteration of the `Pattern` loop shortens the pattern. -/
theorem scanChunk_length (p : List Nat) (hp : p ≠ []) :
    (scanChunk p).2.2.length < p.length := by
  have h1 := scanStars_length p false
  have h2 := scanLoop_length _ (scanStars p false).2 false (Nat.le_refl _)
  have h3 : (scanChunk p).2.2 = (scanLoop (scanStars p false).2 false).2 := rfl
  have h4 : (scanChunk p).2.1 = (scanLoop (scanStars p false).2 false).1 := rfl
  by_cases hc : (scanChunk p).2.1 = []
  · have hr := scanChunk_chunk_nil p hc
    rw [hr]
    cases p with
    | nil => exact absurd rfl hp
    | cons c cs => simp
  · have hpos : 0 < (scanChunk p).2.1.length := by
      cases hch : (scanChunk p).2.1 with
      | nil => exact absurd hch hc
      | cons a as => simp
    rw [h3]
    rw [h4] at hpos
    omega

/-- With fuel at least the length of the pattern `Match` gives the same result
whatever the fuel: the fuel is never what ends the loop. -/
theorem matchLoop_fuel (f1 : Nat) :
    ∀ (f2 : Nat) (p name : List Nat), p.length ≤ f1 → p.length ≤ f2 →
      matchLoop f1 p name = matchLoop f2 p name := by
  induction f1 with
  | zero =>
    intro f2 p name h1 _
    have hp : p = [] := List.length_eq_zero.1 (Nat.le_zero.1 h1)
    subst hp
    rw [matchLoop_nil, matchLoop_nil]
  | succ a ih =>
    intro f2 p name h1 h2
    by_cases hp : p = []
    · subst hp
      rw [matchLoop_nil, matchLoop_nil]
    · cases f2 with
      | zero => exact absurd (List.length_eq_zero.1 (Nat.le_zero.1 h2)) hp
      | succ b =>
        have hlen := scanChunk_length p hp
        rw [matchLoop_succ a p hp, matchLoop_succ b p hp]
        split_ifs
        · rfl
        · cases nextName (scanChunk p).1 (scanChunk p).2.1 (scanChunk p).2.2.isEmpty name with
          | badPattern => rfl
          | notFound => rfl
          | found t => exact ih b (scanChunk p).2.2 t (by omega) (by omega)

/-! ## `filepath.Match`: patterns without bracket expression or escape -/

theorem plain_cons {c : Nat} {cs : List Nat} (h : Plain (c :: cs)) :
    (c ≠ 91 ∧ c ≠ 92) ∧ Plain cs :=
  ⟨h c (List.mem_cons_self _ _), fun d hd => h d (List.mem_cons_of_mem _ hd)⟩

theorem plain_append {a b : List Nat} (h : Plain (a ++ b)) : Plain a ∧ Plain b :=
  ⟨fun c hc => h c (List.mem_append_left _ hc), fun c hc => h c (List.mem_append_right _ hc)⟩

theorem matchChunkLoop_plain_failed (l : List Nat) (hl : Plain l) :
    ∀ (fuel : Nat) (s : List Nat), l.length ≤ fuel →
      matchChunkLoop fuel l s true = .noMatch := by
  induction l with
  | nil => intro fuel s _; cases fuel <;> simp [matchChunkLoop]
  | cons c cs ih =>
    intro fuel s hf
    obtain ⟨⟨h3, h4⟩, hcs⟩ := plain_cons hl
    cases fuel with
    | zero => simp at hf
    | succ f =>
      have hf2 : cs.length ≤ f := by simpa using hf
      simp only [matchChunkLoop, if_neg h3, if_neg h4, Bool.true_or, if_true]
      split_ifs <;> exact ih hcs f s hf2

/-- On a chunk without bracket expression or escape `matchChunk` is
`chunkRest`. -/
theorem matchChunkLoop_plain (l : List Nat) (hl : Plain l) :
    ∀ (fuel : Nat) (s : List Nat), l.length ≤ fuel →
      matchChunkLoop fuel l s false =
        match chunkRest l s with
        | some t => .matched t
        | none => .noMatch := by
  induction l with
  | nil => intro fuel s _; cases fuel <;> simp [matchChunkLoop, chunkRest]
  | cons c cs ih =>
    intro fuel s hf
    obtain ⟨⟨h3, h4⟩, hcs⟩ := plain_cons hl
    cases fuel with
    | zero => simp at hf
    | succ f =>
      have hf2 : cs.length ≤ f := by simpa using hf
      cases s with
      | nil =>
        simp only [matchChunkLoop, if_neg h3, if_neg h4, List.isEmpty_nil, Bool.or_true,
          if_true, chunkRest]
        split_ifs <;> exact matchChunkLoop_plain_failed cs hcs f [] hf2
      | cons u us =>
        simp only [matchChunkLoop, if_neg h3, if_neg h4, List.isEmpty_cons, Bool.or_false,
          Bool.false_eq_true, if_false, chunkRest, List.tail_cons, List.head?_cons]
        by_cases h2 : c = 63
        · simp only [if_pos h2]
          by_cases hu : u = Separator
          · have hb : (some u == some Separator) = true := by simp [hu]
            rw [hb, if_pos hu]
            exact matchChunkLoop_plain_failed cs hcs f _ hf2
          · have hb : (some u == some Separator) = false := by simpa using hu
            rw [hb, if_neg hu]
            exact ih hcs f _ hf2
        · simp only [if_neg h2]
          by_cases hu : c = u
          · have hb : (some u != some c) = false := by simp [hu]
            rw [hb, if_pos hu]
            exact ih hcs f us hf2
          · have hu2 : ¬ u = c := fun h => hu h.symm
            have hb : (some u != some c) = true := by simpa using hu2
            rw [hb, if_neg hu]
            exact matchChunkLoop_plain_failed cs hcs f us hf2

theorem matchChunk_plain (l s : List Nat) (hl : Plain l) :
    matchChunk l s = match chunkRest l s with
      | some t => .matched t
      | none => .noMatch :=
  matchChunkLoop_plain l hl l.length s (Nat.le_refl _)

theorem chunkRest_cons (c : Nat) (cs : List Nat) (u : Nat) (us : List Nat) :
    chunkRest (c :: cs) (u :: us) =
      if c = 63 then
        if u = Separator then none
        else chunkRest cs ((u :: us).drop (decodeRune (u :: us)).2)
      else if c = u then chunkRest cs us
      else none := rfl

/-- A chunk without bracket expression or escape matches itself. -/
theorem chunkRest_self (l r : List Nat) : chunkRest l (l ++ r) = some r := by
  induction l with
  | nil => cases r <;> rfl
  | cons c cs ih =>
    rw [List.cons_append, chunkRest_cons]
    by_cases h2 : c = 63
    · subst h2
      have hsep : (63 : Nat) ≠ Separator := by decide
      rw [if_pos rfl, if_neg hsep, decodeRune_ascii 63 _ (by decide)]
      simpa using ih
    · rw [if_neg h2, if_pos rfl]
      exact ih

/-- A chunk read on a text in which it stands after a run without separator
leaves the rest of the text after a run without separator. -/
theorem chunkRest_shift (l : List Nat) :
    ∀ (w rest t : List Nat), Separator ∉ w →
      chunkRest l (w ++ l ++ rest) = some t →
        ∃ y, t = y ++ rest ∧ Separator ∉ y := by
  induction l with
  | nil =>
    intro w rest t hsep h
    simp only [List.append_nil, chunkRest] at h
    cases hw : w ++ rest with
    | nil =>
      rw [hw] at h
      simp only [chunkRest, Option.some.injEq] at h
      exact ⟨w, by rw [← h, hw], hsep⟩
    | cons a as =>
      rw [hw] at h
      simp only [chunkRest, Option.some.injEq] at h
      exact ⟨w, by rw [← h, hw], hsep⟩
  | cons c cs ih =>
    intro w rest t hsep h
    cases w with
    | nil =>
      have hself := chunkRest_self (c :: cs) rest
      simp only [List.nil_append] at h
      rw [hself] at h
      simp only [Option.some.injEq] at h
      exact ⟨[], by simp [h], by simp⟩
    | cons u us =>
      have hu : u ≠ Separator := fun e => hsep (e ▸ List.mem_cons_self _ _)
      have hus : Separator ∉ us := fun e => hsep (List.mem_cons_of_mem _ e)
      have hlist : (u :: us) ++ (c :: cs) ++ rest = u :: (us ++ c :: (cs ++ rest)) := by
        simp
      rw [hlist, chunkRest_cons] at h
      by_cases h2 : c = 63
      · subst h2
        rw [if_pos rfl, if_neg hu] at h
        -- the rune read at `u` stays inside `u :: us`
        have hwin := decodeRune_window (u :: us) 63 (cs ++ rest) (List.cons_ne_nil _ _)
          (by decide)
        have hform : u :: (us ++ 63 :: (cs ++ rest)) = (u :: us) ++ 63 :: (cs ++ rest) := by
          simp
        rw [hform] at h
        generalize hk : (decodeRune ((u :: us) ++ 63 :: (cs ++ rest))).2 = k at h hwin
        have hdrop : ((u :: us) ++ 63 :: (cs ++ rest)).drop k
            = ((u :: us).drop k ++ [63]) ++ cs ++ rest := by
          rw [List.drop_append_of_le_length hwin]
          simp
        rw [hdrop] at h
        refine ih ((u :: us).drop k ++ [63]) rest t ?_ h
        intro hmem
        rcases List.mem_append.1 hmem with e | e
        · exact hsep (List.mem_of_mem_drop e)
        · simp only [List.mem_singleton] at e
          exact absurd e (by decide)
      · rw [if_neg h2] at h
        split_ifs at h with hcu
        have hform : us ++ c :: (cs ++ rest) = (us ++ [c]) ++ cs ++ rest := by simp
        rw [hform] at h
        refine ih (us ++ [c]) rest t ?_ h
        intro hmem
        rcases List.mem_append.1 hmem with e | e
        · exact hus e
        · simp only [List.mem_singleton] at e
          exact hu (hcu ▸ e.symm)

theorem starLoop_cons (chunk : List Nat) (last : Bool) (c : Nat) (cs : List Nat) :
    starLoop chunk last (c :: cs) =
      if c = Separator then .notFound else nextName true chunk last cs := by
  simp only [starLoop, nextName]
  split_ifs with h1
  · rfl
  · cases matchChunk chunk cs with
    | badPattern => rfl
    | noMatch => rfl
    | matched t => cases last <;> cases t <;> simp

/-- The retry of a starred chunk on a text where the chunk stands after a run
without separator: the chunk is found, and what is left is again the rest of
the text after a run without separator. -/
theorem nextName_plain (l r : List Nat) (hl : Plain l) :
    ∀ w : List Nat, Separator ∉ w →
      ∃ y, Separator ∉ y ∧ (r = [] → y = []) ∧
        nextName true l r.isEmpty (w ++ l ++ r) = .found (y ++ r) := by
  intro w
  induction w with
  | nil =>
    intro _
    refine ⟨[], by simp, fun _ => rfl, ?_⟩
    simp only [List.nil_append, nextName, matchChunk_plain l (l ++ r) hl, chunkRest_self]
    cases r <;> simp
  | cons u us ih =>
    intro hsep
    have hu : u ≠ Separator := fun e => hsep (e ▸ List.mem_cons_self _ _)
    have hus : Separator ∉ us := fun e => hsep (List.mem_cons_of_mem _ e)
    obtain ⟨y, hy1, hy2, hy3⟩ := ih hus
    have hfall : starLoop l r.isEmpty (u :: us ++ l ++ r) = .found (y ++ r) := by
      rw [List.cons_append, List.cons_append, starLoop_cons, if_neg hu]
      exact hy3
    simp only [nextName, matchChunk_plain l (u :: us ++ l ++ r) hl]
    cases hcr : chunkRest l (u :: us ++ l ++ r) with
    | none => exact ⟨y, hy1, hy2, by simpa using hfall⟩
    | some t =>
      simp only []
      by_cases hacc : (t.isEmpty || !r.isEmpty) = true
      · obtain ⟨y', ht, hy'⟩ := chunkRest_shift l (u :: us) r t hsep hcr
        refine ⟨y', hy', ?_, ?_⟩
        · intro hr
          subst hr
          simp only [List.isEmpty_nil, Bool.not_true, Bool.or_false, List.isEmpty_iff] at hacc
          rw [hacc] at ht
          simpa using ht.symm
        · rw [if_pos hacc, ht]
      · rw [if_neg hacc]
        exact ⟨y, hy1, hy2, by simpa using hfall⟩

theorem scanStars_split (p : List Nat) :
    ∀ star : Bool, ∃ s q, p = s ++ q ∧ (∀ c ∈ s, c = 42) ∧ q.head? ≠ some 42 ∧
      (s = [] → p.head? ≠ some 42) ∧
      scanStars p star = ((star || !s.isEmpty), q) := by
  induction p with
  | nil => intro star; exact ⟨[], [], rfl, by simp, by simp, by simp, by simp [scanStars]⟩
  | cons c cs ih =>
    intro star
    by_cases hc : c = 42
    · obtain ⟨s, q, h1, h2, h3, _, h5⟩ := ih true
      refine ⟨c :: s, q, by simp [h1], ?_, h3, by simp, ?_⟩
      · intro d hd
        rcases List.mem_cons.1 hd with e | e
        · rw [e, hc]
        · exact h2 d e
      · simp [scanStars, hc, h5]
    · exact ⟨[], c :: cs, rfl, by simp, by simpa using hc, by simpa using hc,
        by simp [scanStars, hc]⟩

theorem scanLoop_split (q : List Nat) (hq : Plain q) :
    ∃ c r, q = c ++ r ∧ 42 ∉ c ∧ (r = [] ∨ r.head? = some 42) ∧
      scanLoop q false = (c, r) := by
  induction q with
  | nil => exact ⟨[], [], rfl, by simp, Or.inl rfl, rfl⟩
  | cons a as ih =>
    obtain ⟨⟨h3, h4⟩, has⟩ := plain_cons hq
    obtain ⟨c, r, h1, h2, hr, h5⟩ := ih has
    by_cases ha : a = 42
    · refine ⟨[], a :: as, rfl, by simp, Or.inr (by simp [ha]), ?_⟩
      rw [scanLoop.eq_def]
      simp [ha]
    · refine ⟨a :: c, r, by simp [h1], ?_, hr, ?_⟩
      · intro hmem
        rcases List.mem_cons.1 hmem with e | e
        · exact ha e.symm
        · exact h2 e
      · rw [scanLoop.eq_def]
        by_cases h6 : a = 93
        · simp [h3, h4, h6, h5]
        · simp [h3, h4, h6, ha, h5]

/-- A pattern without bracket expression or escape, read as a name, is
matched by itself, also after a run without separator when it begins with a
star. -/
theorem matchLoop_plain_self (fuel : Nat) :
    ∀ (p x : List Nat), Plain p → Separator ∉ x → p.length ≤ fuel →
      (x = [] ∨ p.head? = some 42) → matchLoop fuel p (x ++ p) = (true, none) := by
  induction fuel with
  | zero =>
    intro p x _ _ hlen hx
    have hp : p = [] := List.length_eq_zero.1 (Nat.le_zero.1 hlen)
    subst hp
    rcases hx with hx | hx
    · subst hx; rfl
    · simp at hx
  | succ f ih =>
    intro p x hp hsep hlen hx
    by_cases hpe : p = []
    · subst hpe
      rcases hx with hx | hx
      · subst hx; rfl
      · simp at hx
    · obtain ⟨s, q, hsq, hs, hq, hs0, hscan⟩ := scanStars_split p false
      have hq_plain : Plain q := (plain_append (hsq ▸ hp)).2
      obtain ⟨c, r, hcr, hc, hr, hloop⟩ := scanLoop_split q hq_plain
      have hsc : scanChunk p = ((!s.isEmpty), c, r) := by
        simp [scanChunk, hscan, hloop]
      have hc_plain : Plain c := (plain_append (hcr ▸ hq_plain)).1
      have hr_plain : Plain r := (plain_append (hcr ▸ hq_plain)).2
      have hs_sep : Separator ∉ s := fun h => absurd (hs _ h) (by decide)
      have hp_eq : p = s ++ c ++ r := by rw [hsq, hcr, List.append_assoc]
      have hr_len : r.length ≤ f := by
        have h1 : p.length = s.length + c.length + r.length := by
          rw [hp_eq]; simp only [List.length_append]
        have h2 : 0 < s.length + c.length := by
          by_contra h0
          have hs' : s = [] := List.length_eq_zero.1 (by omega)
          have hc' : c = [] := List.length_eq_zero.1 (by omega)
          subst hs' hc'
          rcases hr with hr | hr
          · exact hpe (by simp [hp_eq, hr])
          · have : q.head? = some 42 := by simpa [hcr] using hr
            exact hq this
        omega
      rw [matchLoop_succ f p hpe, hsc]
      by_cases hstar : s = []
      · -- no star: the chunk is read at the start of the name
        subst hstar
        have hx0 : x = [] := by
          rcases hx with hx | hx
          · exact hx
          · exact absurd hx (hs0 rfl)
        subst hx0
        have hname : [] ++ p = c ++ r := by simp [hp_eq]
        have hnext : nextName false c r.isEmpty (c ++ r) = .found r := by
          simp only [nextName, matchChunk_plain c (c ++ r) hc_plain, chunkRest_self]
          cases r <;> simp
        simp only [List.isEmpty_nil, Bool.not_true, Bool.false_and, Bool.false_eq_true,
          if_false, hname, hnext]
        have := ih r [] hr_plain (by simp) hr_len (Or.inl rfl)
        simpa using this
      · have hse : s.isEmpty = false := by cases s <;> simp at hstar ⊢
        simp only [hse, Bool.not_false, Bool.true_and]
        by_cases hce : c = []
        · -- trailing star
          subst hce
          have hre : r = [] := by
            rcases hr with hr | hr
            · exact hr
            · have : q.head? = some 42 := by simpa [hcr] using hr
              exact absurd this hq
          subst hre
          have hname : x ++ p = x ++ s := by simp [hp_eq]
          have hno : Separator ∉ x ++ s := by
            simp only [List.mem_append, not_or]
            exact ⟨hsep, hs_sep⟩
          simp [hname, hno]
        · have hcne : c.isEmpty = false := by cases c <;> simp at hce ⊢
          have hname : x ++ p = (x ++ s) ++ c ++ r := by simp [hp_eq]
          have hw : Separator ∉ x ++ s := by
            simp only [List.mem_append, not_or]
            exact ⟨hsep, hs_sep⟩
          obtain ⟨y, hy1, hy2, hy3⟩ := nextName_plain c r hc_plain (x ++ s) hw
          simp only [hcne, Bool.false_eq_true, if_false, hname, hy3]
          refine ih r y hr_plain hy1 hr_len ?_
          rcases hr with hr | hr
          · exact Or.inl (hy2 hr)
          · exact Or.inr hr

theorem utf8EncodeChar_ascii (c : Char) (b : Nat) (hb : b ∈ utf8EncodeChar c)
    (h : b < 128) : c.toNat = b := by
  unfold utf8EncodeChar at hb
  split_ifs at hb <;> simp only [List.mem_cons, List.mem_singleton, List.not_mem_nil,
    or_false] at hb
  · exact hb.symm
  all_goals rcases hb with rfl | rfl | rfl | rfl <;> omega

theorem char_of_toNat (c : Char) (n : Nat) (h : c.toNat = n) : c = Char.ofNat n := by
  rw [← h, Char.ofNat_toNat]

/-- The bytes of a name without `[` and `\` hold neither of the two bytes. -/
theorem plain_utf8 (l : List Char)
    (h : l.all (fun c => c != '[' && c != '\\') = true) : Plain (utf8EncodeChars l) := by
  induction l with
  | nil => intro c hc; simp [utf8EncodeChars] at hc
  | cons a as ih =>
    simp only [List.all_cons, Bool.and_eq_true, bne_iff_ne, ne_eq] at h
    obtain ⟨⟨h1, h2⟩, h3⟩ := h
    intro b hb
    simp only [utf8EncodeChars, List.mem_append] at hb
    rcases hb with hb | hb
    · constructor
      · intro e
        have := utf8EncodeChar_ascii a b hb (by omega)
        exact h1 (by rw [char_of_toNat a b this, e])
      · intro e
        have := utf8EncodeChar_ascii a b hb (by omega)
        exact h2 (by rw [char_of_toNat a b this, e])
    · exact ih (by simpa using h3) b hb

/-- A name without `[` and `\`, read as a pattern, matches itself. -/
theorem filepathMatch_plain_self (c : String) (hc : isPlain c = true) :
    filepathMatch c c = (true, none) := by
  have hp : Plain (utf8Bytes c) := plain_utf8 c.data hc
  have := matchLoop_plain_self (utf8Bytes c).length (utf8Bytes c) [] hp (by simp)
    (Nat.le_refl _) (Or.inl rfl)
  simpa [filepathMatch] using this

/-! ## `filepath.Match`: test vectors -/

/-- The model gives the result of every entry of `matchTests`. -/
theorem filepathMatch_matchTests :
    matchTests.all (fun t =>
      filepathMatch t.1 t.2.1 == (t.2.2.1, if t.2.2.2 then some ErrBadPattern else none))
      = true := by
  decide

/-! ## `strings.Fields` and the white-space separated fields -/

theorem fieldsLoop_dropWhile (s : List Char) :
    fieldsLoop s [] = fieldsLoop (s.dropWhile isSpace) [] := by
  induction s with
  | nil => rfl
  | cons c cs ih =>
    by_cases hc : isSpace c = true
    · simp only [fieldsLoop, hc, if_true, List.isEmpty_nil, List.dropWhile_cons_of_pos hc]
      exact ih
    · simp only [Bool.not_eq_true] at hc
      rw [List.dropWhile_cons_of_neg (by simp [hc])]

theorem fieldsLoop_field (f : List Char) (hf : f.all (fun c => !isSpace c) = true) :
    ∀ (cur r : List Char), fieldsLoop (f ++ r) cur = fieldsLoop r (cur ++ f) := by
  induction f with
  | nil => intro cur r; simp
  | cons c cs ih =>
    intro cur r
    simp only [List.all_cons, Bool.and_eq_true, Bool.not_eq_true'] at hf
    obtain ⟨hc, hcs⟩ := hf
    have h1 : fieldsLoop (c :: (cs ++ r)) cur = fieldsLoop (cs ++ r) (cur ++ [c]) := by
      rw [fieldsLoop, if_neg (by simp [hc])]
    rw [List.cons_append, h1, ih hcs (cur ++ [c]) r]
    simp

theorem fieldsLoop_end (cur r : List Char) (hcur : cur ≠ [])
    (hr : (r.head?.map isSpace).getD true = true) :
    fieldsLoop r cur = ⟨cur⟩ :: fieldsLoop r [] := by
  have hce : cur.isEmpty = false := by cases cur <;> simp at hcur ⊢
  cases r with
  | nil => simp [fieldsLoop, hce]
  | cons a as =>
    have ha : isSpace a = true := by simpa using hr
    simp [fieldsLoop, ha, hce]

/-- The first field of a text that satisfies the check for `f :: fs`. -/
theorem fieldsLoop_first (s f : List Char) (hne : f ≠ [])
    (hf : f.all (fun c => !isSpace c) = true)
    (hpre : f.isPrefixOf (s.dropWhile isSpace) = true)
    (hr : ((((s.dropWhile isSpace).drop f.length).head?.map isSpace).getD true) = true) :
    fieldsLoop s [] = ⟨f⟩ :: fieldsLoop ((s.dropWhile isSpace).drop f.length) [] := by
  obtain ⟨r, hr2⟩ := List.isPrefixOf_iff_prefix.1 hpre
  have hdrop : (s.dropWhile isSpace).drop f.length = r := by
    rw [← hr2, List.drop_left]
  rw [hdrop] at hr ⊢
  rw [fieldsLoop_dropWhile, ← hr2, fieldsLoop_field f hf [] r, List.nil_append,
    fieldsLoop_end f r hne hr]

/-- The check determines the fields: a list that passes it is the list
`strings.Fields` returns. -/
theorem splitsInto_unique (fs : List (List Char)) :
    ∀ s : List Char, splitsInto s fs = true → (fieldsLoop s []).map String.data = fs := by
  induction fs with
  | nil =>
    intro s h
    simp only [splitsInto] at h
    have : s.dropWhile isSpace = [] := by
      rw [List.dropWhile_eq_nil_iff]
      simpa [List.all_eq_true] using h
    rw [fieldsLoop_dropWhile, this]
    rfl
  | cons f fs ih =>
    intro s h
    simp only [splitsInto, Bool.and_eq_true, Bool.not_eq_true', List.isEmpty_eq_false] at h
    obtain ⟨⟨⟨⟨hne, hf⟩, hpre⟩, hr⟩, hrest⟩ := h
    rw [fieldsLoop_first s f hne hf hpre hr, List.map_cons, ih _ hrest]

/-- The list `strings.Fields` returns passes the check. -/
theorem splitsInto_fields (n : Nat) :
    ∀ s : List Char, s.length ≤ n →
      splitsInto s ((fieldsLoop s []).map String.data) = true := by
  induction n with
  | zero =>
    intro s h
    have hs : s = [] := List.length_eq_zero.1 (Nat.le_zero.1 h)
    subst hs
    rfl
  | succ k ih =>
    intro s h
    cases hs1 : s.dropWhile isSpace with
    | nil =>
      rw [fieldsLoop_dropWhile, hs1]
      simp only [fieldsLoop, List.isEmpty_nil, if_true, List.map_nil, splitsInto]
      rw [List.dropWhile_eq_nil_iff] at hs1
      simpa [List.all_eq_true] using hs1
    | cons a as =>
      have ha : isSpace a = false := by
        have := List.head_dropWhile_not isSpace s (by rw [hs1]; simp)
        simpa [hs1] using this
      -- the first field and what follows it
      have hsplit : a :: as = (a :: as).takeWhile (fun c => !isSpace c)
          ++ (a :: as).dropWhile (fun c => !isSpace c) :=
        (List.takeWhile_append_dropWhile _ _).symm
      generalize hfdef : (a :: as).takeWhile (fun c => !isSpace c) = f at hsplit
      generalize hrdef : (a :: as).dropWhile (fun c => !isSpace c) = r at hsplit
      have hne : f ≠ [] := by
        rw [← hfdef, List.takeWhile_cons_of_pos (by simp [ha])]
        simp
      have hf : f.all (fun c => !isSpace c) = true := by
        rw [← hfdef, List.all_eq_true]
        intro c hc
        exact List.mem_takeWhile_imp (p := fun c => !isSpace c) hc
      have hpre : f.isPrefixOf (s.dropWhile isSpace) = true := by
        rw [hs1, hsplit]
        exact List.isPrefixOf_iff_prefix.2 ⟨r, rfl⟩
      have hdrop : (s.dropWhile isSpace).drop f.length = r := by
        rw [hs1, hsplit, List.drop_left]
      have hr : ((((s.dropWhile isSpace).drop f.length).head?.map isSpace).getD true)
          = true := by
        rw [hdrop]
        cases hr0 : r with
        | nil => rfl
        | cons b bs =>
          have := List.head_dropWhile_not (fun c => !isSpace c) (a :: as)
            (by rw [hrdef, hr0]; simp)
          simpa [hrdef, hr0] using this
      have hlen : r.length ≤ k := by
        have h1 : (s.dropWhile isSpace).length ≤ s.length :=
          (List.dropWhile_sublist _).length_le
        have h2 : (a :: as).length = f.length + r.length := by
          rw [hsplit, List.length_append]
        have h3 : 0 < f.length := List.length_pos.2 hne
        rw [hs1] at h1
        omega
      rw [fieldsLoop_first s f hne hf hpre hr, hdrop, List.map_cons]
      have hfe : f.isEmpty = false := by cases f <;> simp at hne ⊢
      rw [hdrop] at hr
      simp only [splitsInto, hfe, Bool.not_false, Bool.true_and, hf, hpre, hr, hdrop]
      exact ih r hlen

theorem string_data_map_injective (a b : List String)
    (h : a.map String.data = b.map String.data) : a = b := by
  induction a generalizing b with
  | nil => cases b <;> simp at h ⊢
  | cons x xs ih =>
    cases b with
    | nil => simp at h
    | cons y ys =>
      simp only [List.map_cons, List.cons.injEq] at h
      rw [String.ext h.1, ih ys h.2]

theorem parseContextLine_fields (line : String) :
    parseContextLine line = some
      { Name := (Fields (if HasPrefix line "*" then TrimPrefix line "*" else line)).getD 0 ""
        Cluster := (Fields (if HasPrefix line "*" then TrimPrefix line "*" else line)).getD 1 ""
        AuthInfo := (Fields (if HasPrefix line "*" then TrimPrefix line "*" else line)).getD 2 ""
        Namespace := (Fields (if HasPrefix line "*" then TrimPrefix line "*" else line)).getD 3 ""
        Current := HasPrefix line "*" } := by
  unfold parseContextLine
  simp only []
  generalize Fields (if HasPrefix line "*" = true then TrimPrefix line "*" else line) = fields
  cases HasPrefix line "*" <;>
  match fields with
  | [] => simp [assignField]
  | [a] => simp [assignField]
  | [a, b] => simp [assignField]
  | [a, b, c] => simp [assignField]
  | a :: b :: c :: d :: rest => simp [assignField]

/-! ## The decision engine (claims C1 to C3) -/

/-- C1: when the configuration exists, loads with patterns `P`, and the
context lookup succeeds with name `c`, then for every argument list `Check`
returns `(RequireConfirmation, c, nil)` if `c` matches at least one pattern of
`P` and the arguments are state-altering, and `(Allow, c, nil)` in every other
case; an unmatched context yields `Allow` for all arguments. -/
theorem check_decision (w : World) (P : List String) (c : String)
    (hex : w.configExists = .ok true) (hload : w.configLoad = .ok ⟨P⟩)
    (hctx : w.getCurrentContext = .ok c) :
    (∀ args : List String,
      ((∃ p ∈ P, (w.filepathMatch p c).1 = true) ∧ IsStateAltering args = true →
        (Check w args).1 = (Result.RequireConfirmation, c, none)) ∧
      (¬ ((∃ p ∈ P, (w.filepathMatch p c).1 = true) ∧ IsStateAltering args = true) →
        (Check w args).1 = (Result.Allow, c, none))) ∧
    ((¬ ∃ p ∈ P, (w.filepathMatch p c).1 = true) →
      ∀ args : List String, (Check w args).1 = (Result.Allow, c, none)) := by
  have key : ∀ args : List String, (Check w args).1 =
      if isContextProtectedLoop w.filepathMatch P c = true ∧ IsStateAltering args = true
      then (Result.RequireConfirmation, c, none) else (Result.Allow, c, none) := by
    intro args
    simp only [Check, hex, hload, hctx, Config.IsContextProtected]
    by_cases h1 : isContextProtectedLoop w.filepathMatch P c = true <;>
      by_cases h2 : IsStateAltering args = true <;> simp [h1, h2]
  refine ⟨fun args => ⟨fun h => ?_, fun h => ?_⟩, fun h args => ?_⟩
  · rw [key, if_pos ⟨(isContextProtectedLoop_iff _ _ _).2 h.1, h.2⟩]
  · rw [key, if_neg (fun h2 => h ⟨(isContextProtectedLoop_iff _ _ _).1 h2.1, h2.2⟩)]
  · rw [key, if_neg (fun h2 => h ((isContextProtectedLoop_iff _ _ _).1 h2.1))]

/-- Witness of C1: on a protected context `delete pod nginx` requires
confirmation and `get pods` is allowed. -/
theorem check_decision_witness :
    (Check protectedWorld ["delete", "pod", "nginx"]).1
        = (Result.RequireConfirmation, "prod-main", none) ∧
      (Check protectedWorld ["get", "pods"]).1 = (Result.Allow, "prod-main", none) :=
  have h := check_decision protectedWorld ["staging", "prod-main"] "prod-main" rfl rfl rfl
  ⟨(h.1 ["delete", "pod", "nginx"]).1 ⟨⟨"prod-main", by decide, by decide⟩, by decide⟩,
   (h.1 ["get", "pods"]).2 (fun h2 => absurd h2.2 (by decide))⟩

/-- C2: when the configuration file does not exist (and the existence check
does not fail), `Check` returns `(SetupRequired, "", nil)` for every argument
list; the only external call made is the existence check, so the outcome is
the same whatever the load, the context lookup or the matcher would answer. -/
theorem check_setup_required (w : World) (hex : w.configExists = .ok false) :
    (∀ args : List String, (Check w args).1 = (Result.SetupRequired, "", none)) ∧
    (∀ args : List String, (Check w args).2 = [ExtCall.configExists]) ∧
    (∀ (w' : World) (args args' : List String), w'.configExists = .ok false →
      Check w' args' = Check w args) := by
  refine ⟨fun args => ?_, fun args => ?_, fun w' args args' h' => ?_⟩
  · simp [Check, hex]
  · simp [Check, hex]
  · simp [Check, hex, h']

/-- Witness of C2: without a configuration even `delete pod nginx` on a
context that would be looked up successfully gives `SetupRequired`. -/
theorem check_setup_required_witness :
    (Check unconfiguredWorld ["delete", "pod", "nginx"]).1
        = (Result.SetupRequired, "", none) ∧
      (Check unconfiguredWorld ["delete", "pod", "nginx"]).2 = [ExtCall.configExists] :=
  have h := check_setup_required unconfiguredWorld rfl
  ⟨h.1 ["delete", "pod", "nginx"], h.2.1 ["delete", "pod", "nginx"]⟩

/-- C3: `Check` returns a non-nil error exactly when the existence check fails
or the load is attempted and fails (the load is attempted exactly when the
existence check answers `true`); the error returned is the store's own, with
result `Allow`. When the configuration exists and loads but the context lookup
fails, `Check` returns `(Allow, "", nil)` for every argument list. -/
theorem check_error_policy (w : World) (args : List String) :
    ((Check w args).1.2.2 ≠ none ↔
      (∃ e, w.configExists = .error e) ∨
      (ExtCall.configLoad ∈ (Check w args).2 ∧ ∃ e, w.configLoad = .error e)) ∧
    (ExtCall.configLoad ∈ (Check w args).2 ↔ w.configExists = .ok true) ∧
    (∀ e, w.configExists = .error e → (Check w args).1 = (Result.Allow, "", some e)) ∧
    (∀ e, w.configExists = .ok true → w.configLoad = .error e →
      (Check w args).1 = (Result.Allow, "", some e)) ∧
    (∀ cfg e, w.configExists = .ok true → w.configLoad = .ok cfg →
      w.getCurrentContext = .error e → (Check w args).1 = (Result.Allow, "", none)) := by
  refine ⟨?_, ?_, fun e h => ?_, fun e h1 h2 => ?_, fun cfg e h1 h2 h3 => ?_⟩
  · cases hex : w.configExists with
    | error e => simp [Check, hex]
    | ok b =>
      cases b with
      | false => simp [Check, hex]
      | true =>
        cases hload : w.configLoad with
        | error e => simp [Check, hex, hload]
        | ok cfg =>
          cases hctx : w.getCurrentContext with
          | error e => simp [Check, hex, hload, hctx]
          | ok ctx =>
            simp only [Check, hex, hload, hctx]
            split_ifs <;> simp
  · cases hex : w.configExists with
    | error e => simp [Check, hex]
    | ok b =>
      cases b with
      | false => simp [Check, hex]
      | true =>
        cases hload : w.configLoad with
        | error e => simp [Check, hex, hload]
        | ok cfg =>
          cases hctx : w.getCurrentContext with
          | error e => simp [Check, hex, hload, hctx]
          | ok ctx =>
            simp only [Check, hex, hload, hctx]
            split_ifs <;> simp
  · simp [Check, h]
  · simp [Check, h1, h2]
  · simp [Check, h1, h2, h3]

/-- Witness of C3: with a failing context lookup the state-altering
`delete pod nginx` is allowed without an error. -/
theorem check_error_policy_witness :
    IsStateAltering ["delete", "pod", "nginx"] = true ∧
      (Check contextlessWorld ["delete", "pod", "nginx"]).1 = (Result.Allow, "", none) :=
  ⟨by decide,
   (check_error_policy contextlessWorld ["delete", "pod", "nginx"]).2.2.2.2
     ⟨["prod-main"]⟩ ⟨"exit status 1"⟩ rfl rfl rfl⟩

/-! ## The argument classifier (claims C5 to C8) -/

/-- C5, as stated, fails: in `["", "delete", "pod"]` the first token that is
neither a flag nor a consumed value is the empty string, yet `ExtractCommand`
returns `("delete", "pod")`: an empty token leaves `cmd == ""` true, so the
next positional token becomes the command. -/
theorem extractCommand_positional_counterexample :
    ¬ (∀ args : List String,
        ExtractCommand args
          = ((positionalTokens args).headD "", ((positionalTokens args).drop 1).headD "")) := by
  intro h
  exact absurd (h ["", "delete", "pod"]) (by decide)

/-- C5, amended: for every argument list, `ExtractCommand` returns as `cmd`
the first non-empty token that is neither a flag nor the value consumed by a
preceding recognized value-taking flag, and as `subCmd` the next token (empty
or not) that is neither flag nor consumed value; each is the empty string when
no such token exists. When no such token is empty this is the first and the
second such token. -/
theorem extractCommand_positional (args : List String) :
    (ExtractCommand args
      = ((((positionalTokens args).dropWhile (fun t => t == "")).headD ""),
         ((((positionalTokens args).dropWhile (fun t => t == "")).drop 1).headD ""))) ∧
    ("" ∉ positionalTokens args →
      ExtractCommand args
        = ((positionalTokens args).headD "", ((positionalTokens args).drop 1).headD "")) := by
  have h1 := (extractLoop_positionalTokens args.length args (Nat.le_refl _)).2
  refine ⟨h1, fun hne => ?_⟩
  have hd : (positionalTokens args).dropWhile (fun t => t == "") = positionalTokens args := by
    cases hp : positionalTokens args with
    | nil => rfl
    | cons a l =>
      have ha : a ≠ "" := by
        intro ha
        apply hne
        rw [hp, ha]
        exact List.mem_cons_self _ _
      have hb : (a == "") = false := by simpa using ha
      simp [List.dropWhile, hb]
  unfold ExtractCommand
  rw [h1, hd]

/-- C6: for every argument list that consists only of flags (the empty list
included), `ExtractCommand` returns `("", "")`, `IsStateAltering` returns
`false` and `IsSafeCommand` returns `true`. -/
theorem extractCommand_flagsOnly (args : List String) (h : FlagsOnly args) :
    ExtractCommand args = ("", "") ∧ IsStateAltering args = false ∧
      IsSafeCommand args = true := by
  have hec : ExtractCommand args = ("", "") := by
    unfold ExtractCommand
    induction h with
    | nil => exact extractLoop_nil _ _
    | bare t rest hf hv _ ih => rw [extractLoop_flag t rest "" hf, hv]; exact ih
    | valued f v rest hv _ ih =>
      rw [extractLoop_flag f (v :: rest) "" (takesValue_isFlag f hv), hv, extractLoop_skip]
      exact ih
    | last f hv =>
      rw [extractLoop_flag f [] "" (takesValue_isFlag f hv), extractLoop_nil]
  refine ⟨hec, ?_, ?_⟩
  · simp [IsStateAltering, hec]
  · simp [IsSafeCommand, hec]

/-- Witness of C6 at `-n default --context prod` (the flags-only case of the
test suite), followed by an unrecognized flag and a value-less `-o`. -/
theorem extractCommand_flagsOnly_witness :
    ExtractCommand ["-n", "default", "--context", "prod", "--all", "-o"] = ("", "") ∧
      IsStateAltering ["-n", "default", "--context", "prod", "--all", "-o"] = false ∧
      IsSafeCommand ["-n", "default", "--context", "prod", "--all", "-o"] = true :=
  extractCommand_flagsOnly _
    (FlagsOnly.valued "-n" "default" _ (by decide)
      (FlagsOnly.valued "--context" "prod" _ (by decide)
        (FlagsOnly.bare "--all" _ (by decide) (by decide)
          (FlagsOnly.last "-o" (by decide)))))

/-- C7: for every recognized value-taking flag `f` (a key of `knownShortFlags`
or `knownLongFlags`), every token `v` and every list `rest`,
`ExtractCommand (f :: v :: rest) = ExtractCommand rest`; and for every
non-empty non-flag token `c`, `ExtractCommand (c :: f :: v :: rest)` has
command `c` and the subcommand of `ExtractCommand (c :: rest)`. -/
theorem extractCommand_flag_value (f v : String) (rest : List String)
    (hf : f ∈ knownShortFlags ∨ f ∈ knownLongFlags) :
    ExtractCommand (f :: v :: rest) = ExtractCommand rest ∧
    (∀ c : String, c ≠ "" → isFlag c = false →
      ExtractCommand (c :: f :: v :: rest) = (c, (ExtractCommand (c :: rest)).2) ∧
      (ExtractCommand (c :: rest)).1 = c) := by
  have hv : takesValue f = true := by
    unfold takesValue
    rcases hf with h | h
    · simp [h]
    · simp [h]
  have hflag := takesValue_isFlag f hv
  unfold ExtractCommand
  refine ⟨?_, fun c hc hcf => ?_⟩
  · rw [extractLoop_flag f (v :: rest) "" hflag, hv, extractLoop_skip]
  · rw [extractLoop_positional c (f :: v :: rest) "" hcf, if_pos rfl,
      extractLoop_flag f (v :: rest) c hflag, hv, extractLoop_skip,
      extractLoop_positional c rest "" hcf, if_pos rfl,
      (extractLoop_positionalTokens rest.length rest (Nat.le_refl _)).1 c hc]
    exact ⟨rfl, rfl⟩

/-- Witness of C7: the value of `-n` is skipped even when it is a command
name or looks like a flag, before the command and between command and
subcommand. -/
theorem extractCommand_flag_value_witness :
    ExtractCommand ["-n", "delete", "get", "pods"] = ExtractCommand ["get", "pods"] ∧
      ExtractCommand ["get", "--context", "-x", "pods"]
        = ("get", (ExtractCommand ["get", "pods"]).2) :=
  ⟨(extractCommand_flag_value "-n" "delete" ["get", "pods"] (Or.inl (by decide))).1,
   ((extractCommand_flag_value "--context" "-x" ["pods"] (Or.inr (by decide))).2
      "get" (by decide) (by decide)).1⟩

/-- C8: for every token `t` that starts with `-` and is not a recognized
value-taking flag, in particular for every token that starts with `--` and
contains `=`, and every list `rest`: the loop of `ExtractCommand` goes from
`t :: rest` to `rest` with `skipNext` still `false`, whatever command it
holds, so `ExtractCommand (t :: rest) = ExtractCommand rest` and the token
after `t` is not consumed as its value. -/
theorem extractCommand_bare_flag (t : String) (rest : List String)
    (h : (isFlag t = true ∧ t ∉ knownShortFlags ∧ t ∉ knownLongFlags) ∨
         (HasPrefix t "--" = true ∧ Contains t "=" = true)) :
    (∀ cmd : String, extractLoop (t :: rest) false cmd = extractLoop rest false cmd) ∧
    ExtractCommand (t :: rest) = ExtractCommand rest := by
  have hfv : isFlag t = true ∧ takesValue t = false := by
    rcases h with ⟨h1, h2, h3⟩ | ⟨h1, h2⟩
    · exact ⟨h1, by simp [takesValue, h2, h3]⟩
    · refine ⟨hasPrefix_dash_of_dashdash t h1, ?_⟩
      have hs : t ∉ knownShortFlags := fun hs => by
        have := (knownShort_props t hs).2
        rw [h1] at this
        exact absurd this (by decide)
      have hl : t ∉ knownLongFlags := fun hl => by
        have := (knownLong_props t hl).2
        rw [h2] at this
        exact absurd this (by decide)
      simp [takesValue, hs, hl]
  have key : ∀ cmd : String,
      extractLoop (t :: rest) false cmd = extractLoop rest false cmd := by
    intro cmd
    rw [extractLoop_flag t rest cmd hfv.1, hfv.2]
  exact ⟨key, key ""⟩

/-- Witness of C8: `--namespace=default`, the unrecognized long option
`--all-namespaces` and the unrecognized short option `-A` are skipped alone;
the token after them is classified. -/
theorem extractCommand_bare_flag_witness :
    ExtractCommand ["--namespace=default", "delete", "pod"] = ExtractCommand ["delete", "pod"] ∧
      ExtractCommand ["--all-namespaces", "delete", "pod"] = ExtractCommand ["delete", "pod"] ∧
      ExtractCommand ["-A", "delete", "pod"] = ExtractCommand ["delete", "pod"] :=
  ⟨(extractCommand_bare_flag "--namespace=default" ["delete", "pod"]
      (Or.inr ⟨by decide, by decide⟩)).2,
   (extractCommand_bare_flag "--all-namespaces" ["delete", "pod"]
      (Or.inl ⟨by decide, by decide, by decide⟩)).2,
   (extractCommand_bare_flag "-A" ["delete", "pod"]
      (Or.inl ⟨by decide, by decide, by decide⟩)).2⟩

/-! ## The safety policy (claims C4 and C9) -/

/-- C4: with `(cmd, sub) = ExtractCommand args`, `IsStateAltering args` is
true if and only if `cmd` is in the state-altering table and it is not the
case that `cmd = "rollout"` with `sub` one of `status`, `history`. So
`rollout` with any other subcommand (or none) is state-altering, `rollout
status` and `rollout history` are not, and a command absent from the table is
never state-altering. -/
theorem isStateAltering_iff (args : List String) :
    (IsStateAltering args = true ↔
      (ExtractCommand args).1 ∈ stateAlteringCommands ∧
      ¬ ((ExtractCommand args).1 = "rollout" ∧
          ((ExtractCommand args).2 = "status" ∨ (ExtractCommand args).2 = "history"))) ∧
    (stateAlteringCommands =
      ["apply", "create", "delete", "patch", "replace", "edit", "scale", "rollout",
       "autoscale", "expose", "run", "set", "label", "annotate", "taint", "drain",
       "cordon", "uncordon", "exec", "cp", "debug", "attach"]) ∧
    ((ExtractCommand args).1 = "rollout" →
      (IsStateAltering args = false ↔
        ((ExtractCommand args).2 = "status" ∨ (ExtractCommand args).2 = "history"))) ∧
    ((ExtractCommand args).1 ∉ stateAlteringCommands → IsStateAltering args = false) := by
  have hempty : ("" : String) ∉ stateAlteringCommands := by decide
  have hroll : ("rollout" : String) ∈ stateAlteringCommands := by decide
  have hsub : ∀ s : String, s ∈ safeRolloutSubcommands ↔
      (s = "status" ∨ s = "history") := by
    intro s
    simp [safeRolloutSubcommands]
  have key : IsStateAltering args = true ↔
      (ExtractCommand args).1 ∈ stateAlteringCommands ∧
      ¬ ((ExtractCommand args).1 = "rollout" ∧
          ((ExtractCommand args).2 = "status" ∨ (ExtractCommand args).2 = "history")) := by
    cases args with
    | nil =>
      have h0 : ExtractCommand [] = ("", "") := rfl
      simp only [IsStateAltering, h0]
      simp [hempty]
    | cons a rest =>
      generalize hec : ExtractCommand (a :: rest) = r
      obtain ⟨cmd, sub⟩ := r
      simp only [IsStateAltering, hec, ← hsub]
      by_cases hc : cmd = ""
      · subst hc
        simp [hempty]
      · by_cases hr : cmd = "rollout"
        · subst hr
          by_cases hs : sub ∈ safeRolloutSubcommands
          · simp [hs]
          · simp [hs, hroll]
        · simp [hc, hr]
  refine ⟨key, rfl, fun hr => ?_, fun hn => ?_⟩
  · rw [← Bool.not_eq_true, key]
    simp only [hr, hroll, true_and, not_not]
  · rw [← Bool.not_eq_true, key]
    exact fun h => hn h.1

/-- C9, as stated, fails: `frobnicate x` has a non-empty command that is in
neither table, and the read-only check `IsSafeCommand` returns `false` on it
(the final `return safeCommands[cmd]` is a lookup of a missing key). -/
theorem isSafeCommand_unknown_counterexample :
    ¬ (∀ args : List String,
        (ExtractCommand args).1 ≠ "" →
        (ExtractCommand args).1 ∉ safeCommands →
        (ExtractCommand args).1 ∉ stateAlteringCommands →
        IsSafeCommand args = true) := by
  intro h
  have h1 := h ["frobnicate", "x"] (by decide) (by decide) (by decide)
  exact absurd h1 (by decide)

/-- C9, amended: for every argument list whose extracted command is
non-empty and in neither the safe table nor the state-altering table,
`IsSafeCommand` returns `false` and `IsStateAltering` returns `false`: an
unknown command is not state-altering, and it is not reported as read-only
either. -/
theorem isSafeCommand_unknown (args : List String)
    (hne : (ExtractCommand args).1 ≠ "")
    (hsafe : (ExtractCommand args).1 ∉ safeCommands)
    (halt : (ExtractCommand args).1 ∉ stateAlteringCommands) :
    IsSafeCommand args = false ∧ IsStateAltering args = false := by
  have hroll : ("rollout" : String) ∈ stateAlteringCommands := by decide
  cases args with
  | nil => exact absurd rfl hne
  | cons a rest =>
    generalize hec : ExtractCommand (a :: rest) = r at hne hsafe halt
    obtain ⟨cmd, sub⟩ := r
    have hr : cmd ≠ "rollout" := fun h => halt (h ▸ hroll)
    simp only [IsSafeCommand, IsStateAltering, hec]
    simp at hne hsafe halt
    simp [hne, hr, hsafe, halt]

/-- Witness of the amended C9 at `frobnicate x`. -/
theorem isSafeCommand_unknown_witness :
    IsSafeCommand ["frobnicate", "x"] = false ∧
      IsStateAltering ["frobnicate", "x"] = false :=
  isSafeCommand_unknown ["frobnicate", "x"] (by decide) (by decide) (by decide)

/-! ## The context matcher (claim C10) -/

/-- C10: for every matcher, pattern list `P` and context name `c`,
`IsContextProtected` is true if and only if some pattern of `P` matches `c`.
Consequently the result depends only on the set of patterns: it is the same
for every permutation of `P` and for `P` with duplicates removed; it is
`false` for the empty list; and the call leaves the configuration as it was. -/
theorem isContextProtected_iff (fmatch : Matcher) (P : List String) (c : String) :
    ((Config.IsContextProtected fmatch ⟨P⟩ c).1 = true ↔
      ∃ p ∈ P, (fmatch p c).1 = true) ∧
    (∀ Q : List String, (∀ p, p ∈ Q ↔ p ∈ P) →
      (Config.IsContextProtected fmatch ⟨Q⟩ c).1
        = (Config.IsContextProtected fmatch ⟨P⟩ c).1) ∧
    (∀ Q : List String, Q.Perm P →
      (Config.IsContextProtected fmatch ⟨Q⟩ c).1
        = (Config.IsContextProtected fmatch ⟨P⟩ c).1) ∧
    ((Config.IsContextProtected fmatch ⟨P.dedup⟩ c).1
        = (Config.IsContextProtected fmatch ⟨P⟩ c).1) ∧
    ((Config.IsContextProtected fmatch ⟨[]⟩ c).1 = false) ∧
    ((Config.IsContextProtected fmatch ⟨P⟩ c).2 = ⟨P⟩) := by
  have hset : ∀ Q : List String, (∀ p, p ∈ Q ↔ p ∈ P) →
      (Config.IsContextProtected fmatch ⟨Q⟩ c).1
        = (Config.IsContextProtected fmatch ⟨P⟩ c).1 := by
    intro Q hQ
    apply Bool.eq_iff_iff.2
    simp only [Config.IsContextProtected, isContextProtectedLoop_iff]
    constructor
    · rintro ⟨p, hp, hm⟩
      exact ⟨p, (hQ p).1 hp, hm⟩
    · rintro ⟨p, hp, hm⟩
      exact ⟨p, (hQ p).2 hp, hm⟩
  refine ⟨?_, hset, fun Q hQ => hset Q (fun p => hQ.mem_iff), ?_, rfl, rfl⟩
  · simp only [Config.IsContextProtected, isContextProtectedLoop_iff]
  · exact hset P.dedup (fun p => List.mem_dedup)

/-! ## Editing the protected pattern list (claims C14 and C15) -/

/-- C14: for every list `L` and string `x`: if `x` occurs in `L`,
`AddContext` returns `false` and leaves the list unchanged; otherwise it
returns `true` and the list becomes `L` with `x` appended at the end (the
length grows by exactly one). A second `AddContext x` always returns `false`
and changes nothing, and a list without duplicates stays without
duplicates. -/
theorem addContext_spec (L : List String) (x : String) :
    (x ∈ L → Config.AddContext ⟨L⟩ x = (false, ⟨L⟩)) ∧
    (x ∉ L → Config.AddContext ⟨L⟩ x = (true, ⟨L ++ [x]⟩) ∧
      (Config.AddContext ⟨L⟩ x).2.ProtectedContexts.length = L.length + 1) ∧
    (Config.AddContext (Config.AddContext ⟨L⟩ x).2 x
      = (false, (Config.AddContext ⟨L⟩ x).2)) ∧
    (L.Nodup → (Config.AddContext ⟨L⟩ x).2.ProtectedContexts.Nodup) := by
  by_cases h : x ∈ L
  · have h1 : Config.AddContext ⟨L⟩ x = (false, ⟨L⟩) := by rw [addContext_eq, if_pos h]
    refine ⟨fun _ => h1, fun hn => absurd h hn, ?_, fun hnd => ?_⟩
    · rw [h1, h1]
    · rw [h1]
      exact hnd
  · have h1 : Config.AddContext ⟨L⟩ x = (true, ⟨L ++ [x]⟩) := by rw [addContext_eq, if_neg h]
    refine ⟨fun hm => absurd hm h, fun _ => ⟨h1, ?_⟩, ?_, fun hnd => ?_⟩
    · rw [h1]
      simp
    · rw [h1, addContext_eq, if_pos (by simp)]
    · rw [h1]
      exact List.Nodup.append hnd (List.nodup_singleton x) (by simpa using h)

/-- C15: for every list `L` and string `x`: if `x` does not occur in `L`,
`RemoveContext` returns `false` and leaves the list unchanged; otherwise it
returns `true` and the list becomes `L` with the first occurrence of `x`
deleted, every other element kept in place (the length shrinks by exactly
one). When `L` has no duplicates `x` is no longer in the list afterwards, and
`RemoveContext x` right after a successful `AddContext x` restores `L`. -/
theorem removeContext_spec (L : List String) (x : String) :
    (x ∉ L → Config.RemoveContext ⟨L⟩ x = (false, ⟨L⟩)) ∧
    (x ∈ L → ∃ pre post : List String, L = pre ++ x :: post ∧ x ∉ pre ∧
      Config.RemoveContext ⟨L⟩ x = (true, ⟨pre ++ post⟩) ∧
      (Config.RemoveContext ⟨L⟩ x).2.ProtectedContexts.length + 1 = L.length) ∧
    (L.Nodup → x ∉ (Config.RemoveContext ⟨L⟩ x).2.ProtectedContexts) ∧
    ((Config.AddContext ⟨L⟩ x).1 = true →
      Config.RemoveContext (Config.AddContext ⟨L⟩ x).2 x = (true, ⟨L⟩)) := by
  refine ⟨fun hn => ?_, fun hm => ?_, fun hnd => ?_, fun hadd => ?_⟩
  · rw [removeContext_eq, List.erase_of_not_mem hn]
    simp [hn]
  · obtain ⟨pre, post, hpre, hL, herase⟩ := List.exists_erase_eq hm
    refine ⟨pre, post, hL, hpre, ?_, ?_⟩
    · rw [removeContext_eq, herase]
      simp [hm]
    · rw [removeContext_eq, herase, hL]
      simp
      omega
  · rw [removeContext_eq]
    exact fun hmem => (List.Nodup.mem_erase_iff hnd).1 hmem |>.1 rfl
  · have hx : x ∉ L := by
      intro hm
      rw [addContext_eq, if_pos hm] at hadd
      simp at hadd
    rw [addContext_eq, if_neg hx, removeContext_eq]
    have : (L ++ [x]).erase x = L := by
      rw [List.erase_append_right [x] hx]
      simp
    simp [this]

/-! ## Description, irrelevance of later tokens, disjointness (claims C16, C18, C19) -/

/-- C16: with `(cmd, sub) = ExtractCommand args`, `GetCommandDescription args`
is `cmd ++ " " ++ sub` when `sub` is non-empty and `cmd` otherwise; it is the
empty string for the empty list and for flags-only lists; and whenever
`IsStateAltering args` is true the description is non-empty and its first
space-separated word is the command, a member of the state-altering table. -/
theorem getCommandDescription_spec (args : List String) :
    ((ExtractCommand args).2 ≠ "" →
      GetCommandDescription args = (ExtractCommand args).1 ++ " " ++ (ExtractCommand args).2) ∧
    ((ExtractCommand args).2 = "" → GetCommandDescription args = (ExtractCommand args).1) ∧
    (FlagsOnly args → GetCommandDescription args = "") ∧
    (IsStateAltering args = true →
      GetCommandDescription args ≠ "" ∧
      firstWord (GetCommandDescription args) = (ExtractCommand args).1 ∧
      firstWord (GetCommandDescription args) ∈ stateAlteringCommands) := by
  refine ⟨fun h => ?_, fun h => ?_, fun h => ?_, fun h => ?_⟩
  · rw [getCommandDescription_eq, if_pos h]
  · rw [getCommandDescription_eq, if_neg (not_not.2 h)]
  · have hec : extractLoop args false "" = ("", "") := by
      induction h with
      | nil => exact extractLoop_nil _ _
      | bare t rest hf hv _ ih => rw [extractLoop_flag t rest "" hf, hv]; exact ih
      | valued f v rest hv _ ih =>
        rw [extractLoop_flag f (v :: rest) "" (takesValue_isFlag f hv), hv, extractLoop_skip]
        exact ih
      | last f hv =>
        rw [extractLoop_flag f [] "" (takesValue_isFlag f hv), extractLoop_nil]
    have hec2 : ExtractCommand args = ("", "") := hec
    rw [getCommandDescription_eq, hec2]
    rfl
  · rw [isStateAltering_eq] at h
    simp only [Bool.and_eq_true, List.contains_eq_any_beq, List.any_eq_true, beq_iff_eq] at h
    obtain ⟨_, t, hmem, ht⟩ := h
    obtain ⟨hne, hsp, _⟩ := stateAltering_props t hmem
    rw [getCommandDescription_eq, ht]
    by_cases hs : (ExtractCommand args).2 = ""
    · rw [if_neg (not_not.2 hs)]
      refine ⟨hne, ?_, ?_⟩
      · show String.mk _ = t
        rw [takeWhile_no_space t.data hsp]
      · have : firstWord t = t := by
          show String.mk _ = t
          rw [takeWhile_no_space t.data hsp]
        rw [this]
        exact hmem
    · rw [if_pos hs]
      have hfw : firstWord (t ++ " " ++ (ExtractCommand args).2) = t := by
        show String.mk _ = t
        have hd : (t ++ " " ++ (ExtractCommand args).2).data
            = t.data ++ ' ' :: (ExtractCommand args).2.data := by
          simp [String.data_append]
        rw [hd, takeWhile_before_space _ _ hsp]
      refine ⟨?_, hfw, ?_⟩
      · intro hempty
        have hd : (t ++ " " ++ (ExtractCommand args).2).data
            = t.data ++ ' ' :: (ExtractCommand args).2.data := by
          simp [String.data_append]
        rw [hempty] at hd
        have : ([] : List Char) = t.data ++ ' ' :: (ExtractCommand args).2.data := hd
        simp at this
      · rw [hfw]
        exact hmem

/-- C18: for every argument list whose extracted subcommand is non-empty and
every list `extra` of further tokens, `ExtractCommand (args ++ extra) =
ExtractCommand args`, and `IsStateAltering`, `IsSafeCommand` and
`GetCommandDescription` give the same result on `args ++ extra` as on
`args`. -/
theorem extractCommand_append (args extra : List String)
    (h : (ExtractCommand args).2 ≠ "") :
    ExtractCommand (args ++ extra) = ExtractCommand args ∧
    IsStateAltering (args ++ extra) = IsStateAltering args ∧
    IsSafeCommand (args ++ extra) = IsSafeCommand args ∧
    GetCommandDescription (args ++ extra) = GetCommandDescription args := by
  have hec : ExtractCommand (args ++ extra) = ExtractCommand args :=
    extractLoop_append args extra false "" h
  refine ⟨hec, ?_, ?_, ?_⟩
  · rw [isStateAltering_eq, isStateAltering_eq, hec]
  · rw [isSafeCommand_eq, isSafeCommand_eq, hec]
  · rw [getCommandDescription_eq, getCommandDescription_eq, hec]

/-- Witness of C18: the tokens after `rollout restart` do not change the
classification. -/
theorem extractCommand_append_witness :
    ExtractCommand (["rollout", "restart"] ++ ["deployment/nginx", "-n", "prod"])
        = ExtractCommand ["rollout", "restart"] ∧
      IsStateAltering (["rollout", "restart"] ++ ["deployment/nginx", "-n", "prod"])
        = IsStateAltering ["rollout", "restart"] :=
  have h := extractCommand_append ["rollout", "restart"] ["deployment/nginx", "-n", "prod"]
    (by decide)
  ⟨h.1, h.2.1⟩

/-- C19: the safe-command table and the state-altering table are disjoint,
and no argument list makes `IsSafeCommand` and `IsStateAltering` both true;
under the `rollout status` / `rollout history` override the invocation is
safe and not state-altering. -/
theorem safe_stateAltering_disjoint :
    (∀ c : String, ¬ (c ∈ safeCommands ∧ c ∈ stateAlteringCommands)) ∧
    (∀ args : List String, ¬ (IsSafeCommand args = true ∧ IsStateAltering args = true)) ∧
    (∀ args : List String, (ExtractCommand args).1 = "rollout" →
      ((ExtractCommand args).2 = "status" ∨ (ExtractCommand args).2 = "history") →
      IsSafeCommand args = true ∧ IsStateAltering args = false) := by
  have hdisj : ∀ c : String, ¬ (c ∈ safeCommands ∧ c ∈ stateAlteringCommands) :=
    fun c hc => (stateAltering_props c hc.2).2.2 hc.1
  refine ⟨hdisj, fun args hboth => ?_, fun args hr hs => ?_⟩
  · obtain ⟨hsafe, halt⟩ := hboth
    rw [isSafeCommand_eq] at hsafe
    rw [isStateAltering_eq] at halt
    rw [Bool.and_eq_true, Bool.not_eq_true'] at halt
    obtain ⟨hover, hmem⟩ := halt
    rw [hover, Bool.or_false, Bool.or_eq_true] at hsafe
    have hmem2 : (ExtractCommand args).1 ∈ stateAlteringCommands := by simpa using hmem
    rcases hsafe with he | hs
    · exact (stateAltering_props _ hmem2).1 (by simpa using he)
    · exact hdisj _ ⟨by simpa using hs, hmem2⟩
  · have hsub : safeRolloutSubcommands.contains (ExtractCommand args).2 = true := by
      rcases hs with h | h <;> rw [h] <;> decide
    rw [isSafeCommand_eq, isStateAltering_eq, hr, hsub]
    decide

/-! ## Parsing a context line (claim C17) -/

/-- C17: for every line, with `rest` the line after removing a leading `*`:
`rest` has white-space separated fields, and for every list `fields` that is
the white-space separated fields of `rest`, `parseContextLine` returns (it
never indexes out of range) the record whose `Current` is true exactly when
the line starts with `*` and whose `Name`, `Cluster`, `AuthInfo` and
`Namespace` are the 1st, 2nd, 3rd and 4th field, each the empty string when
the line has fewer fields; fields beyond the 4th do not occur in the result. -/
theorem parseContextLine_spec (line : String) :
    (∃ fields : List String,
      splitsInto (if HasPrefix line "*" then TrimPrefix line "*" else line).data
        (fields.map String.data) = true) ∧
    ∀ fields : List String,
      splitsInto (if HasPrefix line "*" then TrimPrefix line "*" else line).data
        (fields.map String.data) = true →
      parseContextLine line = some
        { Name := fields.getD 0 ""
          Cluster := fields.getD 1 ""
          AuthInfo := fields.getD 2 ""
          Namespace := fields.getD 3 ""
          Current := HasPrefix line "*" } := by
  refine ⟨⟨Fields (if HasPrefix line "*" then TrimPrefix line "*" else line),
    splitsInto_fields _ _ (Nat.le_refl _)⟩, ?_⟩
  intro fields h
  have hf : Fields (if HasPrefix line "*" then TrimPrefix line "*" else line) = fields :=
    string_data_map_injective _ _ (splitsInto_unique _ _ h)
  rw [parseContextLine_fields, hf]

/-- Witness of C17: lines of the test suite with a marker and four fields and
without marker and three fields, a line with tabs around one field, a line
with six fields, and the empty line. -/
theorem parseContextLine_spec_witness :
    parseContextLine "*         prod-cluster       prod-cluster       admin       default"
      = some ⟨"prod-cluster", "prod-cluster", "admin", "default", true⟩ ∧
    parseContextLine "          minikube           minikube           minikube"
      = some ⟨"minikube", "minikube", "minikube", "", false⟩ ∧
    parseContextLine "\tdocker-desktop\t"
      = some ⟨"docker-desktop", "", "", "", false⟩ ∧
    parseContextLine "* a b c d e f"
      = some ⟨"a", "b", "c", "d", true⟩ ∧
    parseContextLine "" = some ⟨"", "", "", "", false⟩ :=
  ⟨(parseContextLine_spec _).2 ["prod-cluster", "prod-cluster", "admin", "default"]
      (by decide),
   (parseContextLine_spec _).2 ["minikube", "minikube", "minikube"] (by decide),
   (parseContextLine_spec _).2 ["docker-desktop"] (by decide),
   (parseContextLine_spec _).2 ["a", "b", "c", "d", "e", "f"] (by decide),
   (parseContextLine_spec _).2 [] (by decide)⟩

/-! ## Glob patterns (claims C11 to C13) -/

/-- C11: for every malformed pattern `m` (one for which `filepath.Match`
reports `ErrBadPattern` on some name), every context name `c` and all lists
`pre`, `post`: `IsContextProtected` is `false` on the list `[m]`, and
inserting `m` between `pre` and `post` does not change the result; the
configuration is left as it was. A malformed pattern behaves as a pattern that
never matches and the patterns after it are still tried. -/
theorem isContextProtected_malformed (m : String) (hm : Malformed m) (c : String)
    (pre post : List String) :
    (Config.IsContextProtected filepathMatch ⟨[m]⟩ c) = (false, ⟨[m]⟩) ∧
    (Config.IsContextProtected filepathMatch ⟨pre ++ m :: post⟩ c).1
      = (Config.IsContextProtected filepathMatch ⟨pre ++ post⟩ c).1 := by
  have hfalse := malformed_never_matches m hm c
  constructor
  · simp [Config.IsContextProtected, isContextProtectedLoop, hfalse]
  · apply Bool.eq_iff_iff.2
    simp only [Config.IsContextProtected, isContextProtectedLoop_iff]
    constructor
    · rintro ⟨p, hp, hmatch⟩
      rcases List.mem_append.1 hp with h | h
      · exact ⟨p, List.mem_append_left _ h, hmatch⟩
      · rcases List.mem_cons.1 h with h | h
        · rw [h, hfalse] at hmatch
          exact absurd hmatch (by decide)
        · exact ⟨p, List.mem_append_right _ h, hmatch⟩
    · rintro ⟨p, hp, hmatch⟩
      rcases List.mem_append.1 hp with h | h
      · exact ⟨p, List.mem_append_left _ h, hmatch⟩
      · exact ⟨p, List.mem_append_right _ (List.mem_cons_of_mem _ h), hmatch⟩

/-- Witness of C11: the unbalanced `prod-[`, the pattern `prod-\` with a
trailing backslash and the pattern `a*[`, whose error shows on the name `ab`
only, do not protect the names they are tried on, and placed before a valid
pattern they leave its verdict as it is. -/
theorem isContextProtected_malformed_witness :
    (Config.IsContextProtected filepathMatch ⟨["prod-["]⟩ "staging-eu"
        = (false, ⟨["prod-["]⟩) ∧
      (Config.IsContextProtected filepathMatch ⟨[] ++ "prod-[" :: ["staging-*"]⟩
          "staging-eu").1
        = (Config.IsContextProtected filepathMatch ⟨[] ++ ["staging-*"]⟩ "staging-eu").1) ∧
    (Config.IsContextProtected filepathMatch ⟨["prod-\\"]⟩ "staging-eu"
        = (false, ⟨["prod-\\"]⟩) ∧
      (Config.IsContextProtected filepathMatch ⟨[] ++ "prod-\\" :: ["staging-*"]⟩
          "staging-eu").1
        = (Config.IsContextProtected filepathMatch ⟨[] ++ ["staging-*"]⟩ "staging-eu").1) ∧
    (Config.IsContextProtected filepathMatch ⟨["a*["]⟩ "b"
        = (false, ⟨["a*["]⟩) ∧
      (Config.IsContextProtected filepathMatch ⟨["x"] ++ "a*[" :: ["?"]⟩ "b").1
        = (Config.IsContextProtected filepathMatch ⟨["x"] ++ ["?"]⟩ "b").1) :=
  ⟨isContextProtected_malformed "prod-[" ⟨"x", by decide⟩ "staging-eu" [] ["staging-*"],
   isContextProtected_malformed "prod-\\" ⟨"x", by decide⟩ "staging-eu" [] ["staging-*"],
   isContextProtected_malformed "a*[" ⟨"ab", by decide⟩ "b" ["x"] ["?"]⟩

/-- C12: the code departs from the claim on names that hold `/`.
`prod-eu/cluster1` starts with `prod-` and `IsContextProtected` is false on it
with the list `["prod-*"]`; `eu/west-production` ends with `-production` and
is not protected by `*-production`; the pattern `*` does not protect
`team/dev`, and `*prod*` does not protect the cluster name
`arn:aws:eks:us-east-1:123456789:cluster/prod`. On the names of the test
suite, which hold no `/` where the `*` stands, the code does what the claim
says. -/
theorem isContextProtected_star_separator :
    (HasPrefix "prod-eu/cluster1" "prod-" = true ∧
      (Config.IsContextProtected filepathMatch ⟨["prod-*"]⟩ "prod-eu/cluster1").1 = false) ∧
    (HasSuffix "eu/west-production" "-production" = true ∧
      (Config.IsContextProtected filepathMatch ⟨["*-production"]⟩
        "eu/west-production").1 = false) ∧
    (Config.IsContextProtected filepathMatch ⟨["*"]⟩ "team/dev").1 = false ∧
    (Config.IsContextProtected filepathMatch ⟨["*prod*"]⟩
      "arn:aws:eks:us-east-1:123456789:cluster/prod").1 = false ∧
    (Config.IsContextProtected filepathMatch ⟨["prod-*"]⟩ "prod-us-east-1").1 = true ∧
    (Config.IsContextProtected filepathMatch ⟨["*-production"]⟩
      "us-east-production").1 = true ∧
    (Config.IsContextProtected filepathMatch ⟨["prod-*"]⟩ "staging-us-east-1").1 = false := by
  decide

/-- C13, as stated, fails: the list `["dev[1]"]` contains the context name
`dev[1]` itself, and `dev[1]` is not protected, because the stored name is
read as a glob pattern whose bracket expression matches the single character
`1`. -/
theorem isContextProtected_self_counterexample :
    "dev[1]" ∈ ["dev[1]"] ∧
      (Config.IsContextProtected filepathMatch ⟨["dev[1]"]⟩ "dev[1]").1 = false := by
  decide

/-- C13, amended: for every context name `c` that contains neither `[` nor
`\` and every pattern list `P` that contains the string `c` itself,
`IsContextProtected P c` is true. -/
theorem isContextProtected_self (c : String) (P : List String)
    (hc : isPlain c = true) (hP : c ∈ P) :
    (Config.IsContextProtected filepathMatch ⟨P⟩ c).1 = true := by
  simp only [Config.IsContextProtected, isContextProtectedLoop_iff]
  refine ⟨c, hP, ?_⟩
  rw [filepathMatch_plain_self c hc]

/-- Witness of the amended C13 on an EKS cluster name, on a name that holds
`*`, `?` and `/`, and on a name with characters of two and three bytes after
a `*`. -/
theorem isContextProtected_self_witness :
    (Config.IsContextProtected filepathMatch
      ⟨["staging", "arn:aws:eks:us-east-1:123456789:cluster/prod"]⟩
      "arn:aws:eks:us-east-1:123456789:cluster/prod").1 = true ∧
    (Config.IsContextProtected filepathMatch ⟨["what?*/ever"]⟩ "what?*/ever").1 = true ∧
    (Config.IsContextProtected filepathMatch ⟨["*?é€?"]⟩ "*?é€?").1 = true :=
  ⟨isContextProtected_self "arn:aws:eks:us-east-1:123456789:cluster/prod"
      ["staging", "arn:aws:eks:us-east-1:123456789:cluster/prod"] (by decide) (by decide),
   isContextProtected_self "what?*/ever" ["what?*/ever"] (by decide) (by decide),
   isContextProtected_self "*?é€?" ["*?é€?"] (by decide) (by decide)⟩

end KubectlGuard
